import Mathlib

/-!
Verification of the git-graphviz object-graph walker.

The development embeds the data model and traversal of the program
(`main.go`): an object store holding blobs, trees, commits and tags keyed
by hash, plus named references; a depth-first walker accumulating four
visited kind-sets, a processed-references map and an edge list; and a
renderer projecting the walk state to DOT text lines.

Hashes are modelled as natural numbers.  The mutually recursive walk
functions of the source are embedded as one structurally recursive
function `step` over a `Task` sum type, indexed by fuel so that every
definition is executable; source-named wrappers (`walk`, `walkRef`,
`walkCommit`, `walkTree`, `walkTag`, `walkObj`) recover the original
call structure.  Fuel exhaustion is a distinguished error, and the
development proves an explicit fuel bound under which it cannot occur.
-/

namespace GitGraphviz

/-- Content hash of an object; the primary key of the store. -/
abbrev Hash := Nat

/-- Entry modes of tree entries, following the filemode constants used by
the source (`filemode.Dir`, `filemode.Regular`, ..., `filemode.Submodule`). -/
inductive FileMode where
  | empty
  | dir
  | regular
  | deprecated
  | executable
  | symlink
  | submodule
deriving DecidableEq, Repr

/-- Mirror of `FileMode.IsFile` from the filemode package: regular,
deprecated, executable and symlink modes count as files. -/
def FileMode.isFile : FileMode → Bool
  | .regular => true
  | .deprecated => true
  | .executable => true
  | .symlink => true
  | _ => false

/-- One entry of a tree object: mode, name, target hash. -/
structure TreeEntry where
  mode : FileMode
  name : String
  hash : Hash
deriving DecidableEq, Repr

/-- Decoded object payloads: the four git object kinds. -/
inductive Obj where
  | tag (target : Hash)
  | commit (treeHash : Hash) (parentHashes : List Hash)
  | tree (entries : List TreeEntry)
  | blob
deriving DecidableEq, Repr

/-- Target of a reference: direct (hash) or symbolic (another name). -/
inductive RefTarget where
  | hashRef (h : Hash)
  | symbolicRef (target : String)
deriving DecidableEq, Repr

/-- A named reference, as in `plumbing.Reference`. -/
structure Reference where
  name : String
  target : RefTarget
deriving DecidableEq, Repr

/-- The object store: finite association list of objects keyed by hash plus
the list of references.  Mirrors the storer interface the walker consumes. -/
structure Store where
  objects : List (Hash × Obj)
  references : List Reference
deriving DecidableEq, Repr

/-- Hash-addressed lookup, `EncodedObject(AnyObject, h)`. -/
def Store.findObj (s : Store) (h : Hash) : Option Obj :=
  (s.objects.find? (fun p => p.1 == h)).map (fun p => p.2)

/-- Reference lookup by name, `storer.Reference(name)`. -/
def Store.findRef (s : Store) (n : String) : Option Reference :=
  s.references.find? (fun r => r.name == n)

/-- Mirror of `HasEncodedObject`: presence test. -/
def Store.hasEncodedObject (s : Store) (h : Hash) : Bool :=
  (s.findObj h).isSome

/-- Typed lookup, `object.GetTag`: fails unless the hash holds a tag. -/
def Store.getTag (s : Store) (h : Hash) : Option Hash :=
  match s.findObj h with
  | some (Obj.tag t) => some t
  | _ => none

/-- Typed lookup, `object.GetCommit`: tree hash and parent hashes. -/
def Store.getCommit (s : Store) (h : Hash) : Option (Hash × List Hash) :=
  match s.findObj h with
  | some (Obj.commit t ps) => some (t, ps)
  | _ => none

/-- Typed lookup, `object.GetTree`: the entry list. -/
def Store.getTree (s : Store) (h : Hash) : Option (List TreeEntry) :=
  match s.findObj h with
  | some (Obj.tree es) => some es
  | _ => none

/-- The walk state: the global accumulators of the source.  `refs` is the
processed-references map (name to reference), the four finsets are the
kind-sets `tags`, `commits`, `trees`, `blobs`, and `edges` is the edge
list flattened to (source hash, target hash) pairs in recording order. -/
structure WalkState where
  refs : List (String × Reference)
  tags : Finset Hash
  commits : Finset Hash
  trees : Finset Hash
  blobs : Finset Hash
  edges : List (Hash × Hash)
deriving DecidableEq

/-- Fresh walk state, as at program start. -/
def emptyState : WalkState := ⟨[], ∅, ∅, ∅, ∅, []⟩

/-- Decidable equality of traversal results, used to evaluate the walker
on concrete stores inside proofs. -/
instance instDecEqExcept {ε α : Type} [DecidableEq ε] [DecidableEq α] :
    DecidableEq (Except ε α) := fun a b =>
  match a, b with
  | .ok x, .ok y =>
    match decEq x y with
    | isTrue h => isTrue (by rw [h])
    | isFalse h => isFalse (by intro hc; cases hc; exact h rfl)
  | .error x, .error y =>
    match decEq x y with
    | isTrue h => isTrue (by rw [h])
    | isFalse h => isFalse (by intro hc; cases hc; exact h rfl)
  | .ok _, .error _ => isFalse (by intro hc; cases hc)
  | .error _, .ok _ => isFalse (by intro hc; cases hc)

/-- Union of the four kind-sets: all hashes the walk has classified. -/
def WalkState.union (st : WalkState) : Finset Hash :=
  st.tags ∪ st.commits ∪ st.trees ∪ st.blobs

/-- Errors of the traversal.  `outOfFuel` is the fuel-exhaustion marker of
the embedding; the others model store errors surfaced through `check`. -/
inductive Err where
  | outOfFuel
  | refNotFound (name : String)
  | objectNotFound (h : Hash)
  | tagNotFound (h : Hash)
  | commitNotFound (h : Hash)
  | treeNotFound (h : Hash)
deriving DecidableEq, Repr

/-- Work items of the walker.  Each constructor corresponds to one of the
mutually recursive functions of the source (or a loop inside one):
`ref` is `walkRef`, `hash` is `walk`, `obj` is `walkObj`, `tag`, `commit`
and `tree` are `walkTag`, `walkCommit` and `walkTree`, while `parents`
and `entries` are the parent loop of `walkCommit` and the entry loop of
`walkTree`. -/
inductive Task where
  | ref (r : Reference)
  | hash (h : Hash)
  | obj (h : Hash) (o : Obj)
  | tag (h : Hash)
  | commit (h : Hash)
  | tree (h : Hash)
  | parents (ps : List Hash)
  | entries (h : Hash) (es : List TreeEntry)
deriving DecidableEq, Repr

/-- The traversal, translated from the source.  Fuel decreases on every
recursive call, making the function structurally recursive; the source
relies on the visited-set guards for termination, which is proved below
as a fuel bound.  In the entry loop of `walkTree` the source tests the
entry mode with three mutually exclusive conditions (`== Dir`,
`IsFile()`, `== Submodule`); the translation renders them as one case
analysis on the mode. -/
def step (s : Store) : Nat → WalkState → Task → Except Err WalkState
  | 0, _, _ => .error .outOfFuel
  | fuel + 1, st, t =>
    match t with
    | .ref r =>
      if (st.refs.lookup r.name).isSome then .ok st
      else
        match r.target with
        | .hashRef h =>
          step s fuel
            ⟨(r.name, r) :: st.refs, st.tags, st.commits, st.trees, st.blobs, st.edges⟩
            (.hash h)
        | .symbolicRef tn =>
          match s.findRef tn with
          | none => .error (.refNotFound r.name)
          | some target =>
            step s fuel
              ⟨(r.name, r) :: st.refs, st.tags, st.commits, st.trees, st.blobs, st.edges⟩
              (.ref target)
    | .hash h =>
      if h ∈ st.tags ∨ h ∈ st.commits ∨ h ∈ st.trees ∨ h ∈ st.blobs then .ok st
      else
        match s.findObj h with
        | none => .error (.objectNotFound h)
        | some o => step s fuel st (.obj h o)
    | .obj h o =>
      match o with
      | .tag _ => step s fuel st (.tag h)
      | .commit _ _ => step s fuel st (.commit h)
      | .tree _ => step s fuel st (.tree h)
      | .blob => .ok ⟨st.refs, st.tags, st.commits, st.trees, insert h st.blobs, st.edges⟩
    | .tag h =>
      if h ∈ st.tags then .ok st
      else
        match s.getTag h with
        | none => .error (.tagNotFound h)
        | some target =>
          step s fuel
            ⟨st.refs, insert h st.tags, st.commits, st.trees, st.blobs,
             st.edges ++ [(h, target)]⟩
            (.hash target)
    | .commit h =>
      if h ∈ st.commits then .ok st
      else
        match s.getCommit h with
        | none => .error (.commitNotFound h)
        | some (treeHash, parentHashes) =>
          match step s fuel
              ⟨st.refs, st.tags, insert h st.commits, st.trees, st.blobs,
               st.edges ++ (parentHashes.map (fun p => (h, p)) ++ [(h, treeHash)])⟩
              (.tree treeHash) with
          | .error e => .error e
          | .ok st3 => step s fuel st3 (.parents parentHashes)
    | .tree h =>
      if h ∈ st.trees then .ok st
      else
        match s.getTree h with
        | none => .error (.treeNotFound h)
        | some es =>
          step s fuel
            ⟨st.refs, st.tags, st.commits, insert h st.trees, st.blobs, st.edges⟩
            (.entries h es)
    | .parents ps =>
      match ps with
      | [] => .ok st
      | p :: rest =>
        match step s fuel st (.commit p) with
        | .error e => .error e
        | .ok st1 => step s fuel st1 (.parents rest)
    | .entries h es =>
      match es with
      | [] => .ok st
      | e :: rest =>
        match e.mode with
        | .dir =>
          match step s fuel
              ⟨st.refs, st.tags, st.commits, st.trees, st.blobs, st.edges ++ [(h, e.hash)]⟩
              (.tree e.hash) with
          | .error err => .error err
          | .ok st1 => step s fuel st1 (.entries h rest)
        | .submodule =>
          match step s fuel
              ⟨st.refs, st.tags, st.commits, st.trees, st.blobs, st.edges ++ [(h, e.hash)]⟩
              (.commit e.hash) with
          | .error err => .error err
          | .ok st1 => step s fuel st1 (.entries h rest)
        | .empty => step s fuel st (.entries h rest)
        | _ =>
          step s fuel
            ⟨st.refs, st.tags, st.commits, st.trees, insert e.hash st.blobs,
             st.edges ++ [(h, e.hash)]⟩
            (.entries h rest)

/-- Source function `walk`: dispatch a hash through the visited guard. -/
def walk (s : Store) (fuel : Nat) (st : WalkState) (h : Hash) : Except Err WalkState :=
  step s fuel st (.hash h)

/-- Source function `walkObj`: dispatch a fetched object by kind. -/
def walkObj (s : Store) (fuel : Nat) (st : WalkState) (h : Hash) (o : Obj) :
    Except Err WalkState :=
  step s fuel st (.obj h o)

/-- Source function `walkTag`. -/
def walkTag (s : Store) (fuel : Nat) (st : WalkState) (h : Hash) : Except Err WalkState :=
  step s fuel st (.tag h)

/-- Source function `walkCommit`. -/
def walkCommit (s : Store) (fuel : Nat) (st : WalkState) (h : Hash) : Except Err WalkState :=
  step s fuel st (.commit h)

/-- Source function `walkTree`. -/
def walkTree (s : Store) (fuel : Nat) (st : WalkState) (h : Hash) : Except Err WalkState :=
  step s fuel st (.tree h)

/-- Source function `walkRef`. -/
def walkRef (s : Store) (fuel : Nat) (st : WalkState) (r : Reference) : Except Err WalkState :=
  step s fuel st (.ref r)

/-- Walk a list of root hashes in order, aborting on the first error, as
the argument loop of `main` does for hash roots. -/
def walkRoots (s : Store) (fuel : Nat) : WalkState → List Hash → Except Err WalkState
  | st, [] => .ok st
  | st, h :: rest =>
    match walk s fuel st h with
    | .error e => .error e
    | .ok st1 => walkRoots s fuel st1 rest

/-- A command-line root argument.  In the source every argument string is
tried first as a reference name and then, via `plumbing.NewHash`, as a
hash; the two readings of the same string are modelled as a pair. -/
structure Arg where
  asName : String
  asHash : Hash
deriving DecidableEq, Repr

/-- Root resolution for one argument, mirroring the argument loop of
`main`: an existing reference wins; otherwise the hash reading is walked
when present in the store; otherwise the reference-lookup error aborts. -/
def handleArg (s : Store) (fuel : Nat) (st : WalkState) (a : Arg) : Except Err WalkState :=
  match s.findRef a.asName with
  | some ref => walkRef s fuel st ref
  | none =>
    if s.hasEncodedObject a.asHash then walk s fuel st a.asHash
    else .error (.refNotFound a.asName)

/-- The root-argument loop of `main`. -/
def walkArgs (s : Store) (fuel : Nat) : WalkState → List Arg → Except Err WalkState
  | st, [] => .ok st
  | st, a :: rest =>
    match handleArg s fuel st a with
    | .error e => .error e
    | .ok st1 => walkArgs s fuel st1 rest

/-- Exhaustive-mode object loop: `IterEncodedObjects` + `walkObj`. -/
def walkObjs (s : Store) (fuel : Nat) : WalkState → List (Hash × Obj) → Except Err WalkState
  | st, [] => .ok st
  | st, p :: rest =>
    match walkObj s fuel st p.1 p.2 with
    | .error e => .error e
    | .ok st1 => walkObjs s fuel st1 rest

/-- Exhaustive-mode reference loop: `References` + `walkRef`. -/
def walkRefList (s : Store) (fuel : Nat) : WalkState → List Reference → Except Err WalkState
  | st, [] => .ok st
  | st, r :: rest =>
    match walkRef s fuel st r with
    | .error e => .error e
    | .ok st1 => walkRefList s fuel st1 rest

/-- The whole traversal of `main`: rooted mode when arguments are given,
exhaustive mode (all objects, then all references) otherwise. -/
def traverse (s : Store) (fuel : Nat) (args : List Arg) : Except Err WalkState :=
  if args.isEmpty then
    match walkObjs s fuel emptyState s.objects with
    | .error e => .error e
    | .ok st => walkRefList s fuel st s.references
  else walkArgs s fuel emptyState args

/-- Rendering options: the two command-line flags. -/
structure Options where
  noColor : Bool
  noTypes : Bool
deriving DecidableEq, Repr

/-- Hash rendering (`Hash.String` of the source, abstracted to decimal). -/
def hashString (h : Hash) : String := toString h

/-- Source function `abbrev`: the first six characters of the hash text. -/
def abbrevHash (h : Hash) : String := (hashString h).take 6

/-- Source function `label`. -/
def label (h : Hash) (t : String) (noTypes : Bool) : String :=
  if noTypes then abbrevHash h else t ++ "\\n" ++ abbrevHash h

/-- Source function `renderAttrs` (attribute order fixed by the model). -/
def renderAttrs (attrs : List (String × String)) : String :=
  "[" ++ String.intercalate "," (attrs.map (fun p => p.1 ++ "=\"" ++ p.2 ++ "\"")) ++ "]"

/-- One node statement line of the DOT output. -/
def nodeLine (name : String) (attrs : List (String × String)) : String :=
  "\t\"" ++ name ++ "\" " ++ renderAttrs attrs ++ ";"

/-- One edge statement line of the DOT output. -/
def edgeLine (src tgt : String) : String :=
  "\t\"" ++ src ++ "\" -> \"" ++ tgt ++ "\";"

/-- Attribute list of an object node of the given kind and color. -/
def objAttrs (opts : Options) (kind : String) (color : String)
    (extra : List (String × String)) (h : Hash) : List (String × String) :=
  extra ++ [("label", label h kind opts.noTypes)]
    ++ (if opts.noColor then [] else [("color", color)])

/-- Node and edge lines emitted for one processed reference. -/
def refLines (opts : Options) (p : String × Reference) : List String :=
  let target :=
    match p.2.target with
    | .hashRef h => hashString h
    | .symbolicRef t => t
  [nodeLine p.1 ([("shape", "box")] ++ (if opts.noColor then [] else [("color", "plum")])),
   edgeLine p.1 target]

/-- Deterministic enumeration of a kind-set for rendering (the source
iterates a hash map in unspecified order; the model sorts). -/
def finList (s : Finset Hash) : List Hash := s.sort (· ≤ ·)

/-- Source function `render`: the full DOT text as a list of lines. -/
def render (opts : Options) (st : WalkState) : List String :=
  ["digraph \x7b",
   "\tnode " ++ renderAttrs ([("fontname", "AnonymousPro")]
     ++ (if opts.noColor then [] else [("style", "filled")])) ++ ";"]
  ++ (finList st.tags).map (fun h => nodeLine (hashString h) (objAttrs opts "tag" "lightskyblue" [] h))
  ++ (finList st.commits).map
      (fun h => nodeLine (hashString h) (objAttrs opts "commit" "yellowgreen" [("group", "commits")] h))
  ++ (finList st.trees).map (fun h => nodeLine (hashString h) (objAttrs opts "tree" "tomato" [] h))
  ++ (finList st.blobs).map (fun h => nodeLine (hashString h) (objAttrs opts "blob" "gold" [] h))
  ++ st.refs.foldr (fun p acc => refLines opts p ++ acc) []
  ++ st.edges.map (fun e => edgeLine (hashString e.1) (hashString e.2))
  ++ ["\x7d"]

/-- The whole program: traverse, then either render (exit 0) or print
nothing on the output stream and exit 1, as `check` does. -/
def mainRun (s : Store) (opts : Options) (fuel : Nat) (args : List Arg) :
    Nat × List String :=
  match traverse s fuel args with
  | .error _ => (1, [])
  | .ok st => (0, render opts st)

/-- State extracted from a traversal result, empty on error. -/
def resultState : Except Err WalkState → WalkState
  | .ok st => st
  | .error _ => emptyState

/-- Whether a traversal result is a success. -/
def isOkE : Except Err WalkState → Bool
  | .ok _ => true
  | .error _ => false

/-! ### Analysis definitions: mentioned hashes, measure, invariants -/

/-- Hashes occurring inside one object payload. -/
def objMentions : Obj → List Hash
  | .tag t => [t]
  | .commit t ps => t :: ps
  | .tree es => es.map (fun e => e.hash)
  | .blob => []

/-- All hashes the store can ever hand to the walker: object keys, hashes
inside object payloads, and direct reference targets. -/
def storeMentions (s : Store) : List Hash :=
  (s.objects.map (fun p => p.1 :: objMentions p.2)).flatten
    ++ (s.references.map (fun r =>
          match r.target with
          | .hashRef h => [h]
          | .symbolicRef _ => [])).flatten

/-- Finite set of store-mentioned hashes. -/
def mentionedHashes (s : Store) : Finset Hash := (storeMentions s).toFinset

/-- Finite set of reference names of the store. -/
def refNameSet (s : Store) : Finset String :=
  (s.references.map (fun r => r.name)).toFinset

/-- Longest payload list of any object of the store. -/
def maxObjLen (s : Store) : Nat :=
  s.objects.foldr (fun p acc => max (objMentions p.2).length acc) 0

/-- Fuel amplification factor of the termination bound. -/
def stepAmp (s : Store) : Nat := maxObjLen s + 3

/-- Fuel cost assigned to each kind of work item. -/
def taskCost : Task → Nat
  | .ref _ => 6
  | .hash _ => 5
  | .obj _ _ => 4
  | .tag _ => 3
  | .commit _ => 3
  | .tree _ => 3
  | .parents ps => ps.length + 4
  | .entries _ es => es.length + 4

/-- Number of still-available gate passings: the walk can mark at most
three kind-sets worth of hashes from `HS` plus one reference per name of
`RS`; every mark decreases this measure. -/
def marksLeft (HS : Finset Hash) (RS : Finset String) (st : WalkState) : Nat :=
  (3 * HS.card + RS.card) - (st.tags.card + st.commits.card + st.trees.card + st.refs.length)

/-- Inductive invariant of the termination argument: the gated sets stay
inside the mentioned universe and the processed-references map has
distinct names drawn from the store. -/
def Inv (HS : Finset Hash) (RS : Finset String) (st : WalkState) : Prop :=
  st.tags ⊆ HS ∧ st.commits ⊆ HS ∧ st.trees ⊆ HS ∧
  (∀ p ∈ st.refs, p.1 ∈ RS) ∧ (st.refs.map Prod.fst).Nodup

/-- Side condition on a work item: the hashes it carries lie in the
mentioned universe, and references come from the store. -/
def TaskHS (s : Store) (HS : Finset Hash) : Task → Prop
  | .ref r => r ∈ s.references
  | .hash h => h ∈ HS
  | .obj h _ => h ∈ HS
  | .tag h => h ∈ HS
  | .commit h => h ∈ HS
  | .tree h => h ∈ HS
  | .parents ps => ∀ p ∈ ps, p ∈ HS
  | .entries _ es => ∀ e ∈ es, e.hash ∈ HS

/-- Monotone growth of walk states: the accumulators only ever grow. -/
def Subsumes (st st' : WalkState) : Prop :=
  st.tags ⊆ st'.tags ∧ st.commits ⊆ st'.commits ∧ st.trees ⊆ st'.trees ∧
  st.blobs ⊆ st'.blobs ∧ st.refs <:+ st'.refs ∧ (∀ e ∈ st.edges, e ∈ st'.edges)

/-- A tree entry has been fully handled: its edge is recorded and its
target is in the kind-set chosen by its mode. -/
def EntryDone (st : WalkState) (h : Hash) (e : TreeEntry) : Prop :=
  (e.mode = .dir → (h, e.hash) ∈ st.edges ∧ e.hash ∈ st.trees) ∧
  (e.mode.isFile = true → (h, e.hash) ∈ st.edges ∧ e.hash ∈ st.blobs) ∧
  (e.mode = .submodule → (h, e.hash) ∈ st.edges ∧ e.hash ∈ st.commits)

/-- A hash is closed in a state: if it sits in a gated kind-set, its
object decoded successfully and everything it points to has been
recorded and visited. -/
def ClosedAt (s : Store) (st : WalkState) (h : Hash) : Prop :=
  (h ∈ st.tags → ∃ x, s.getTag h = some x ∧ (h, x) ∈ st.edges ∧ x ∈ st.union) ∧
  (h ∈ st.commits → ∃ t ps, s.getCommit h = some (t, ps) ∧ t ∈ st.trees ∧
      (h, t) ∈ st.edges ∧ ∀ p ∈ ps, p ∈ st.commits ∧ (h, p) ∈ st.edges) ∧
  (h ∈ st.trees → ∃ es, s.getTree h = some es ∧ ∀ e ∈ es, EntryDone st h e)

/-- Closure of the whole state outside a pending set `P` (the hashes whose
processing is still on the call stack). -/
def ClosedE (s : Store) (st : WalkState) (P : Finset Hash) : Prop :=
  ∀ h, h ∉ P → ClosedAt s st h

/-- Postcondition established by the successful run of a work item. -/
def Post (t : Task) (st' : WalkState) : Prop :=
  match t with
  | .ref r => (st'.refs.lookup r.name).isSome = true
  | .hash h => h ∈ st'.union
  | .obj h _ => h ∈ st'.union
  | .tag h => h ∈ st'.tags
  | .commit h => h ∈ st'.commits
  | .tree h => h ∈ st'.trees
  | .parents ps => ∀ p ∈ ps, p ∈ st'.commits
  | .entries h es => ∀ e ∈ es, EntryDone st' h e

/-- Kind soundness of the three gated sets alone: every member decoded
successfully with the matching kind.  This holds unconditionally along
successful runs, because each gated walk function performs its typed
lookup before recursing and aborts the whole walk on failure. -/
def Kind3 (s : Store) (st : WalkState) : Prop :=
  (∀ h ∈ st.tags, ∃ x, s.getTag h = some x) ∧
  (∀ h ∈ st.commits, ∃ pr, s.getCommit h = some pr) ∧
  (∀ h ∈ st.trees, ∃ es, s.getTree h = some es)

/-- Kind soundness of the gated sets: tags, commits and trees hold only
hashes whose object decodes with the matching kind, and blobs hold only
hashes that are absent or decode as blobs. -/
def KindInv (s : Store) (st : WalkState) : Prop :=
  (∀ h ∈ st.tags, ∃ x, s.findObj h = some (Obj.tag x)) ∧
  (∀ h ∈ st.commits, ∃ t ps, s.findObj h = some (Obj.commit t ps)) ∧
  (∀ h ∈ st.trees, ∃ es, s.findObj h = some (Obj.tree es)) ∧
  (∀ h ∈ st.blobs, s.findObj h = none ∨ s.findObj h = some Obj.blob)

/-- Side condition for kind soundness: an `obj` item carries the stored
object, and an `entries` item carries a tail of the stored entry list. -/
def TaskKind (s : Store) : Task → Prop
  | .obj h o => s.findObj h = some o
  | .entries h es => ∃ pre, s.getTree h = some (pre ++ es)
  | _ => True

/-- Entry list of an object: the entries of a tree, empty otherwise. -/
def entriesOf : Obj → List TreeEntry
  | Obj.tree es => es
  | _ => []

/-- The store condition under which kind-set disjointness holds: a
file-mode tree entry never names a hash stored as a tag, commit or tree. -/
def FileModeConsistent (s : Store) : Prop :=
  ∀ p ∈ s.objects, ∀ e ∈ entriesOf p.2, e.mode.isFile = true →
    s.findObj e.hash = none ∨ s.findObj e.hash = some Obj.blob

/-- Hashes reachable from the roots through the containment relations the
walker follows: tag targets, commit trees and parents, and tree entries
of every mode the walker acts upon. -/
inductive Reach (s : Store) (roots : List Hash) : Hash → Prop where
  | root {h : Hash} : h ∈ roots → Reach s roots h
  | tagTarget {h t : Hash} : Reach s roots h → s.findObj h = some (Obj.tag t) →
      Reach s roots t
  | commitTree {h t : Hash} {ps : List Hash} : Reach s roots h →
      s.findObj h = some (Obj.commit t ps) → Reach s roots t
  | commitParent {h t p : Hash} {ps : List Hash} : Reach s roots h →
      s.findObj h = some (Obj.commit t ps) → p ∈ ps → Reach s roots p
  | treeEntry {h : Hash} {es : List TreeEntry} {e : TreeEntry} : Reach s roots h →
      s.findObj h = some (Obj.tree es) → e ∈ es → e.mode ≠ FileMode.empty →
      Reach s roots e.hash

/-- Side condition for reach soundness: every hash a work item carries is
reachable (reference items never occur in a rooted hash walk). -/
def TaskReach (s : Store) (roots : List Hash) : Task → Prop
  | .ref _ => False
  | .hash h => Reach s roots h
  | .obj h o => Reach s roots h ∧ s.findObj h = some o
  | .tag h => Reach s roots h
  | .commit h => Reach s roots h
  | .tree h => Reach s roots h
  | .parents ps => ∀ p ∈ ps, Reach s roots p
  | .entries h es => Reach s roots h ∧ ∃ pre, s.getTree h = some (pre ++ es)

/-- Fuel that suffices for the whole program traversal on a given store
and argument list. -/
def traverseBound (s : Store) (args : List Arg) : Nat :=
  stepAmp s *
    (3 * (mentionedHashes s ∪ (args.map (fun a => a.asHash)).toFinset).card
      + (refNameSet s).card) + 10

/-! ### Concrete stores used as witnesses and counterexamples -/

/-- Scenario A store: commit 1 (tree 2, no parents), tree 2 with one
regular-file entry naming blob 3. -/
def scenarioAStore : Store :=
  ⟨[(1, Obj.commit 2 []), (2, Obj.tree [⟨FileMode.regular, "f", 3⟩]), (3, Obj.blob)], []⟩

/-- Adversarial store: commit 1 has tree 2 and parent 3; tree 2 has a
regular-file entry naming 3; but 3 is stored as a commit.  The walk from
root 1 marks 3 as a blob (file entry) and later as a commit (parent). -/
def overlapStore : Store :=
  ⟨[(1, Obj.commit 2 [3]), (2, Obj.tree [⟨FileMode.regular, "f", 3⟩]),
    (3, Obj.commit 2 [])], []⟩

/-- Diamond ancestry: commit 10 has parents 11 and 12, both with parent
13; all four share tree 2 with one file entry naming blob 3. -/
def diamondStore : Store :=
  ⟨[(10, Obj.commit 2 [11, 12]), (11, Obj.commit 2 [13]), (12, Obj.commit 2 [13]),
    (13, Obj.commit 2 []), (2, Obj.tree [⟨FileMode.regular, "f", 3⟩]), (3, Obj.blob)], []⟩

/-- Shared-blob store: root commit 1 with tree 20 holding two directory
entries 21 and 22; each subtree has one file entry naming blob 30. -/
def sharedBlobStore : Store :=
  ⟨[(1, Obj.commit 20 []),
    (20, Obj.tree [⟨FileMode.dir, "a", 21⟩, ⟨FileMode.dir, "b", 22⟩]),
    (21, Obj.tree [⟨FileMode.regular, "f", 30⟩]),
    (22, Obj.tree [⟨FileMode.regular, "g", 30⟩]),
    (30, Obj.blob)], []⟩

/-- One tree with two entries naming the same blob: duplicate edges. -/
def dupEdgeStore : Store :=
  ⟨[(23, Obj.tree [⟨FileMode.regular, "x", 31⟩, ⟨FileMode.regular, "y", 31⟩])], []⟩

/-- Store whose references form the symbolic cycle A to B to A. -/
def cycleRefStore : Store :=
  ⟨[], [⟨"A", RefTarget.symbolicRef "B"⟩, ⟨"B", RefTarget.symbolicRef "A"⟩]⟩

/-- Root-resolution store: reference r1 names commit 1; blob 5 exists. -/
def rootStore : Store :=
  ⟨[(1, Obj.commit 2 []), (2, Obj.tree []), (5, Obj.blob)],
   [⟨"r1", RefTarget.hashRef 1⟩]⟩

/-- Submodule store: commit 1, tree 2 with a submodule entry naming 77,
which is absent from the store. -/
def submoduleStore : Store :=
  ⟨[(1, Obj.commit 2 []), (2, Obj.tree [⟨FileMode.submodule, "m", 77⟩])], []⟩

/-- Dangling-symlink store: commit 1, tree 2 with a symlink entry naming
99, which is absent from the store. -/
def danglingStore : Store :=
  ⟨[(1, Obj.commit 2 []), (2, Obj.tree [⟨FileMode.symlink, "l", 99⟩])], []⟩

/-- Exhaustive-mode store: commit 2 with tree 3, tag 4 on blob 1, an
orphan blob 6 nothing points to, and one reference naming commit 2. -/
def inventoryStore : Store :=
  ⟨[(1, Obj.blob), (2, Obj.commit 3 []), (3, Obj.tree []), (4, Obj.tag 1), (6, Obj.blob)],
   [⟨"m", RefTarget.hashRef 2⟩]⟩

/-- Final state of the rooted walk over the scenario A store. -/
def scenarioAFinal : WalkState := resultState (walkRoots scenarioAStore 20 emptyState [1])

/-- Final state of the rooted walk over the shared-blob store. -/
def sharedBlobFinal : WalkState := resultState (walkRoots sharedBlobStore 30 emptyState [1])

/-- Final state of the exhaustive traversal of the inventory store. -/
def inventoryFinal : WalkState := resultState (traverse inventoryStore 100 [])

/-- Final state of the rooted walk over the diamond store. -/
def diamondFinal : WalkState := resultState (walkRoots diamondStore 50 emptyState [10])

/-! ### Basic lemmas about lookups and state growth -/

theorem lookup_isSome_of_mem {l : List (String × Reference)} {a : String} {b : Reference}
    (hmem : (a, b) ∈ l) : (l.lookup a).isSome = true := by
  induction l with
  | nil => cases hmem
  | cons p rest ih =>
    obtain ⟨k, v⟩ := p
    by_cases hk : a = k
    · subst hk; simp [List.lookup]
    · have hrest : (a, b) ∈ rest := by
        rcases List.mem_cons.mp hmem with heq | h2
        · cases heq; exact absurd rfl hk
        · exact h2
      have hbeq : (a == k) = false := beq_eq_false_iff_ne.mpr hk
      simpa [List.lookup, hbeq] using ih hrest

theorem Subsumes.refl (st : WalkState) : Subsumes st st :=
  ⟨le_refl _, le_refl _, le_refl _, le_refl _, List.suffix_refl _, fun _ he => he⟩

theorem Subsumes.trans {a b c : WalkState} (h1 : Subsumes a b) (h2 : Subsumes b c) :
    Subsumes a c :=
  ⟨h1.1.trans h2.1, h1.2.1.trans h2.2.1, h1.2.2.1.trans h2.2.2.1,
   h1.2.2.2.1.trans h2.2.2.2.1, h1.2.2.2.2.1.trans h2.2.2.2.2.1,
   fun e he => h2.2.2.2.2.2 e (h1.2.2.2.2.2 e he)⟩

theorem subsumes_markTag (st : WalkState) (h : Hash) (es : List (Hash × Hash)) :
    Subsumes st ⟨st.refs, insert h st.tags, st.commits, st.trees, st.blobs, st.edges ++ es⟩ :=
  ⟨Finset.subset_insert _ _, le_refl _, le_refl _, le_refl _,
   List.suffix_refl _, fun _ he => List.mem_append.mpr (Or.inl he)⟩

theorem subsumes_markCommit (st : WalkState) (h : Hash) (es : List (Hash × Hash)) :
    Subsumes st ⟨st.refs, st.tags, insert h st.commits, st.trees, st.blobs, st.edges ++ es⟩ :=
  ⟨le_refl _, Finset.subset_insert _ _, le_refl _, le_refl _,
   List.suffix_refl _, fun _ he => List.mem_append.mpr (Or.inl he)⟩

theorem subsumes_markTree (st : WalkState) (h : Hash) :
    Subsumes st ⟨st.refs, st.tags, st.commits, insert h st.trees, st.blobs, st.edges⟩ :=
  ⟨le_refl _, le_refl _, Finset.subset_insert _ _, le_refl _,
   List.suffix_refl _, fun _ he => he⟩

theorem subsumes_markBlob (st : WalkState) (h : Hash) :
    Subsumes st ⟨st.refs, st.tags, st.commits, st.trees, insert h st.blobs, st.edges⟩ :=
  ⟨le_refl _, le_refl _, le_refl _, Finset.subset_insert _ _,
   List.suffix_refl _, fun _ he => he⟩

theorem subsumes_edges (st : WalkState) (es : List (Hash × Hash)) :
    Subsumes st ⟨st.refs, st.tags, st.commits, st.trees, st.blobs, st.edges ++ es⟩ :=
  ⟨le_refl _, le_refl _, le_refl _, le_refl _, List.suffix_refl _,
   fun e he => List.mem_append.mpr (Or.inl he)⟩

theorem subsumes_markRef (st : WalkState) (p : String × Reference) :
    Subsumes st ⟨p :: st.refs, st.tags, st.commits, st.trees, st.blobs, st.edges⟩ :=
  ⟨le_refl _, le_refl _, le_refl _, le_refl _, List.suffix_cons _ _,
   fun _ he => he⟩

theorem subsumes_fileMark (st : WalkState) (h e : Hash) :
    Subsumes st ⟨st.refs, st.tags, st.commits, st.trees, insert e st.blobs,
      st.edges ++ [(h, e)]⟩ :=
  ⟨le_refl _, le_refl _, le_refl _, Finset.subset_insert _ _, List.suffix_refl _,
   fun x hx => List.mem_append.mpr (Or.inl hx)⟩

/-- Monotone growth: a successful run of any work item only extends the
walk state. -/
theorem step_mono (s : Store) :
    ∀ (fuel : Nat) (st : WalkState) (t : Task) (st' : WalkState),
      step s fuel st t = .ok st' → Subsumes st st' := by
  intro fuel
  induction fuel with
  | zero => intro st t st' h; exact Except.noConfusion h
  | succ fuel ih =>
    intro st t st' h
    cases t with
    | ref r =>
      simp only [step] at h
      split at h
      · simp only [Except.ok.injEq] at h; subst h; exact Subsumes.refl st
      · split at h
        · exact (subsumes_markRef st _).trans (ih _ _ _ h)
        · split at h
          · exact Except.noConfusion h
          · exact (subsumes_markRef st _).trans (ih _ _ _ h)
    | hash h0 =>
      simp only [step] at h
      split at h
      · simp only [Except.ok.injEq] at h; subst h; exact Subsumes.refl st
      · split at h
        · exact Except.noConfusion h
        · exact ih _ _ _ h
    | obj h0 o =>
      cases o with
      | tag t => simp only [step] at h; exact ih _ _ _ h
      | commit t ps => simp only [step] at h; exact ih _ _ _ h
      | tree es => simp only [step] at h; exact ih _ _ _ h
      | blob =>
        simp only [step, Except.ok.injEq] at h
        subst h; exact subsumes_markBlob st h0
    | tag h0 =>
      simp only [step] at h
      split at h
      · simp only [Except.ok.injEq] at h; subst h; exact Subsumes.refl st
      · split at h
        · exact Except.noConfusion h
        · exact (subsumes_markTag st h0 _).trans (ih _ _ _ h)
    | commit h0 =>
      simp only [step] at h
      split at h
      · simp only [Except.ok.injEq] at h; subst h; exact Subsumes.refl st
      · split at h
        · exact Except.noConfusion h
        · split at h
          · exact Except.noConfusion h
          · rename_i st3 heq3
            exact ((subsumes_markCommit st h0 _).trans (ih _ _ _ heq3)).trans (ih _ _ _ h)
    | tree h0 =>
      simp only [step] at h
      split at h
      · simp only [Except.ok.injEq] at h; subst h; exact Subsumes.refl st
      · split at h
        · exact Except.noConfusion h
        · exact (subsumes_markTree st h0).trans (ih _ _ _ h)
    | parents ps =>
      cases ps with
      | nil => simp only [step, Except.ok.injEq] at h; subst h; exact Subsumes.refl st
      | cons p rest =>
        simp only [step] at h
        split at h
        · exact Except.noConfusion h
        · rename_i st1 heq1
          exact (ih _ _ _ heq1).trans (ih _ _ _ h)
    | entries h0 es =>
      cases es with
      | nil => simp only [step, Except.ok.injEq] at h; subst h; exact Subsumes.refl st
      | cons e rest =>
        obtain ⟨m, nm, eh⟩ := e
        cases m
        case empty =>
          simp only [step] at h
          exact ih _ _ _ h
        case dir =>
          simp only [step] at h
          split at h
          · exact Except.noConfusion h
          · rename_i st1 heq1
            exact ((subsumes_edges st _).trans (ih _ _ _ heq1)).trans (ih _ _ _ h)
        case submodule =>
          simp only [step] at h
          split at h
          · exact Except.noConfusion h
          · rename_i st1 heq1
            exact ((subsumes_edges st _).trans (ih _ _ _ heq1)).trans (ih _ _ _ h)
        case regular =>
          simp only [step] at h
          exact (subsumes_fileMark st h0 eh).trans (ih _ _ _ h)
        case deprecated =>
          simp only [step] at h
          exact (subsumes_fileMark st h0 eh).trans (ih _ _ _ h)
        case executable =>
          simp only [step] at h
          exact (subsumes_fileMark st h0 eh).trans (ih _ _ _ h)
        case symlink =>
          simp only [step] at h
          exact (subsumes_fileMark st h0 eh).trans (ih _ _ _ h)

/-! ### Typed lookup inversions and kind soundness -/

theorem getTag_some {s : Store} {h x : Hash} (hg : s.getTag h = some x) :
    s.findObj h = some (Obj.tag x) := by
  unfold Store.getTag at hg
  split at hg
  · rename_i heq; simp only [Option.some.injEq] at hg; subst hg; exact heq
  · exact Option.noConfusion hg

theorem getCommit_some {s : Store} {h : Hash} {pr : Hash × List Hash}
    (hg : s.getCommit h = some pr) : s.findObj h = some (Obj.commit pr.1 pr.2) := by
  unfold Store.getCommit at hg
  split at hg
  · rename_i t ps heq; simp only [Option.some.injEq] at hg; subst hg; exact heq
  · exact Option.noConfusion hg

theorem getTree_some {s : Store} {h : Hash} {es : List TreeEntry}
    (hg : s.getTree h = some es) : s.findObj h = some (Obj.tree es) := by
  unfold Store.getTree at hg
  split at hg
  · rename_i heq; simp only [Option.some.injEq] at hg; subst hg; exact heq
  · exact Option.noConfusion hg

/-- Kind soundness is preserved by every successful step. -/
theorem step_kind3 (s : Store) :
    ∀ (fuel : Nat) (st : WalkState) (t : Task) (st' : WalkState),
      Kind3 s st → step s fuel st t = .ok st' → Kind3 s st' := by
  intro fuel
  induction fuel with
  | zero => intro st t st' _ h; exact Except.noConfusion h
  | succ fuel ih =>
    intro st t st' hk h
    cases t with
    | ref r =>
      simp only [step] at h
      split at h
      · simp only [Except.ok.injEq] at h; subst h; exact hk
      · split at h
        · exact ih _ _ _ (by exact hk) h
        · split at h
          · exact Except.noConfusion h
          · exact ih _ _ _ (by exact hk) h
    | hash h0 =>
      simp only [step] at h
      split at h
      · simp only [Except.ok.injEq] at h; subst h; exact hk
      · split at h
        · exact Except.noConfusion h
        · exact ih _ _ _ hk h
    | obj h0 o =>
      cases o with
      | tag t => simp only [step] at h; exact ih _ _ _ hk h
      | commit t ps => simp only [step] at h; exact ih _ _ _ hk h
      | tree es => simp only [step] at h; exact ih _ _ _ hk h
      | blob =>
        simp only [step, Except.ok.injEq] at h
        subst h; exact hk
    | tag h0 =>
      simp only [step] at h
      split at h
      · simp only [Except.ok.injEq] at h; subst h; exact hk
      · split at h
        · exact Except.noConfusion h
        · rename_i tgt heq
          refine ih _ _ _ ?_ h
          refine ⟨?_, hk.2.1, hk.2.2⟩
          intro x hx
          rcases Finset.mem_insert.mp hx with hx | hx
          · subst hx; exact ⟨tgt, heq⟩
          · exact hk.1 x hx
    | commit h0 =>
      simp only [step] at h
      split at h
      · simp only [Except.ok.injEq] at h; subst h; exact hk
      · split at h
        · exact Except.noConfusion h
        · rename_i th ps heq
          split at h
          · exact Except.noConfusion h
          · rename_i st3 heq3
            refine ih _ _ _ (ih _ _ _ ?_ heq3) h
            refine ⟨hk.1, ?_, hk.2.2⟩
            intro x hx
            rcases Finset.mem_insert.mp hx with hx | hx
            · subst hx; exact ⟨(th, ps), heq⟩
            · exact hk.2.1 x hx
    | tree h0 =>
      simp only [step] at h
      split at h
      · simp only [Except.ok.injEq] at h; subst h; exact hk
      · split at h
        · exact Except.noConfusion h
        · rename_i es heq
          refine ih _ _ _ ?_ h
          refine ⟨hk.1, hk.2.1, ?_⟩
          intro x hx
          rcases Finset.mem_insert.mp hx with hx | hx
          · subst hx; exact ⟨es, heq⟩
          · exact hk.2.2 x hx
    | parents ps =>
      cases ps with
      | nil => simp only [step, Except.ok.injEq] at h; subst h; exact hk
      | cons p rest =>
        simp only [step] at h
        split at h
        · exact Except.noConfusion h
        · rename_i st1 heq1
          exact ih _ _ _ (ih _ _ _ hk heq1) h
    | entries h0 es =>
      cases es with
      | nil => simp only [step, Except.ok.injEq] at h; subst h; exact hk
      | cons e rest =>
        obtain ⟨m, nm, eh⟩ := e
        cases m
        case empty => simp only [step] at h; exact ih _ _ _ hk h
        case dir =>
          simp only [step] at h
          split at h
          · exact Except.noConfusion h
          · rename_i st1 heq1
            exact ih _ _ _ (ih _ _ _ (by exact hk) heq1) h
        case submodule =>
          simp only [step] at h
          split at h
          · exact Except.noConfusion h
          · rename_i st1 heq1
            exact ih _ _ _ (ih _ _ _ (by exact hk) heq1) h
        case regular => simp only [step] at h; exact ih _ _ _ (by exact hk) h
        case deprecated => simp only [step] at h; exact ih _ _ _ (by exact hk) h
        case executable => simp only [step] at h; exact ih _ _ _ (by exact hk) h
        case symlink => simp only [step] at h; exact ih _ _ _ (by exact hk) h

/-! ### Closure of the final state -/

theorem union_mono {st st' : WalkState} (h : Subsumes st st') : st.union ⊆ st'.union := by
  intro x hx
  simp only [WalkState.union, Finset.mem_union] at hx ⊢
  rcases hx with ((hx | hx) | hx) | hx
  · exact Or.inl (Or.inl (Or.inl (h.1 hx)))
  · exact Or.inl (Or.inl (Or.inr (h.2.1 hx)))
  · exact Or.inl (Or.inr (h.2.2.1 hx))
  · exact Or.inr (h.2.2.2.1 hx)

theorem entryDone_mono {st st' : WalkState} (hsub : Subsumes st st') {h : Hash}
    {e : TreeEntry} (hd : EntryDone st h e) : EntryDone st' h e := by
  refine ⟨fun hm => ?_, fun hm => ?_, fun hm => ?_⟩
  · exact ⟨hsub.2.2.2.2.2 _ (hd.1 hm).1, hsub.2.2.1 (hd.1 hm).2⟩
  · exact ⟨hsub.2.2.2.2.2 _ (hd.2.1 hm).1, hsub.2.2.2.1 (hd.2.1 hm).2⟩
  · exact ⟨hsub.2.2.2.2.2 _ (hd.2.2 hm).1, hsub.2.1 (hd.2.2 hm).2⟩

theorem closedAt_grow {s : Store} {st st' : WalkState} {x : Hash} (hsub : Subsumes st st')
    (htag : x ∈ st'.tags → x ∈ st.tags) (hcom : x ∈ st'.commits → x ∈ st.commits)
    (htree : x ∈ st'.trees → x ∈ st.trees) (hc : ClosedAt s st x) : ClosedAt s st' x := by
  refine ⟨fun hm => ?_, fun hm => ?_, fun hm => ?_⟩
  · obtain ⟨tg, h1, h2, h3⟩ := hc.1 (htag hm)
    exact ⟨tg, h1, hsub.2.2.2.2.2 _ h2, union_mono hsub h3⟩
  · obtain ⟨t, ps, h1, h2, h3, h4⟩ := hc.2.1 (hcom hm)
    exact ⟨t, ps, h1, hsub.2.2.1 h2, hsub.2.2.2.2.2 _ h3,
      fun p hp => ⟨hsub.2.1 (h4 p hp).1, hsub.2.2.2.2.2 _ (h4 p hp).2⟩⟩
  · obtain ⟨es, h1, h2⟩ := hc.2.2 (htree hm)
    exact ⟨es, h1, fun e he => entryDone_mono hsub (h2 e he)⟩

theorem closedE_neutral {s : Store} {st st' : WalkState} {P : Finset Hash}
    (hsub : Subsumes st st') (ht : st'.tags = st.tags) (hcm : st'.commits = st.commits)
    (htr : st'.trees = st.trees) (hc : ClosedE s st P) : ClosedE s st' P :=
  fun x hx =>
    closedAt_grow hsub (fun hm => ht ▸ hm) (fun hm => hcm ▸ hm) (fun hm => htr ▸ hm)
      (hc x hx)

theorem closedE_markTag {s : Store} {st : WalkState} {h0 : Hash} {P : Finset Hash}
    {es : List (Hash × Hash)} (hc : ClosedE s st P) :
    ClosedE s ⟨st.refs, insert h0 st.tags, st.commits, st.trees, st.blobs, st.edges ++ es⟩
      (insert h0 P) := by
  intro x hx
  have hxh : x ≠ h0 := fun he => hx (he ▸ Finset.mem_insert_self _ _)
  have hxP : x ∉ P := fun hp => hx (Finset.mem_insert_of_mem hp)
  refine closedAt_grow (subsumes_markTag st h0 es) ?_ id id (hc x hxP)
  intro hm
  rcases Finset.mem_insert.mp hm with hm | hm
  · exact absurd hm hxh
  · exact hm

theorem closedE_markCommit {s : Store} {st : WalkState} {h0 : Hash} {P : Finset Hash}
    {es : List (Hash × Hash)} (hc : ClosedE s st P) :
    ClosedE s ⟨st.refs, st.tags, insert h0 st.commits, st.trees, st.blobs, st.edges ++ es⟩
      (insert h0 P) := by
  intro x hx
  have hxh : x ≠ h0 := fun he => hx (he ▸ Finset.mem_insert_self _ _)
  have hxP : x ∉ P := fun hp => hx (Finset.mem_insert_of_mem hp)
  refine closedAt_grow (subsumes_markCommit st h0 es) id ?_ id (hc x hxP)
  intro hm
  rcases Finset.mem_insert.mp hm with hm | hm
  · exact absurd hm hxh
  · exact hm

theorem closedE_markTree {s : Store} {st : WalkState} {h0 : Hash} {P : Finset Hash}
    (hc : ClosedE s st P) :
    ClosedE s ⟨st.refs, st.tags, st.commits, insert h0 st.trees, st.blobs, st.edges⟩
      (insert h0 P) := by
  intro x hx
  have hxh : x ≠ h0 := fun he => hx (he ▸ Finset.mem_insert_self _ _)
  have hxP : x ∉ P := fun hp => hx (Finset.mem_insert_of_mem hp)
  refine closedAt_grow (subsumes_markTree st h0) id id ?_ (hc x hxP)
  intro hm
  rcases Finset.mem_insert.mp hm with hm | hm
  · exact absurd hm hxh
  · exact hm

theorem kindClash_tag_commit {s : Store} {h x : Hash} {pr : Hash × List Hash}
    (h1 : s.getTag h = some x) (h2 : s.getCommit h = some pr) : False := by
  have e1 := getTag_some h1
  have e2 := getCommit_some h2
  rw [e1] at e2
  simp at e2

theorem kindClash_tag_tree {s : Store} {h x : Hash} {es : List TreeEntry}
    (h1 : s.getTag h = some x) (h2 : s.getTree h = some es) : False := by
  have e1 := getTag_some h1
  have e2 := getTree_some h2
  rw [e1] at e2
  simp at e2

theorem kindClash_commit_tree {s : Store} {h : Hash} {pr : Hash × List Hash}
    {es : List TreeEntry} (h1 : s.getCommit h = some pr) (h2 : s.getTree h = some es) :
    False := by
  have e1 := getCommit_some h1
  have e2 := getTree_some h2
  rw [e1] at e2
  simp at e2

/-- Closure and postconditions: a successful run of any work item
preserves closure outside the pending set and establishes the
postcondition of the item. -/
theorem step_closed (s : Store) :
    ∀ (fuel : Nat) (st : WalkState) (t : Task) (st' : WalkState),
      Kind3 s st → step s fuel st t = .ok st' →
      (∀ P : Finset Hash, ClosedE s st P → ClosedE s st' P) ∧ Post t st' := by
  intro fuel
  induction fuel with
  | zero => intro st t st' _ h; exact Except.noConfusion h
  | succ fuel ih =>
    intro st t st' hk h
    cases t with
    | ref r =>
      simp only [step] at h
      split at h
      · rename_i hguard
        simp only [Except.ok.injEq] at h; subst h
        exact ⟨fun _ hc => hc, hguard⟩
      · split at h
        · rename_i hguard h1
          have hmono := step_mono s fuel _ _ _ h
          obtain ⟨hcl, _⟩ := ih _ _ _ (by exact hk) h
          refine ⟨fun P hc => hcl P ?_, ?_⟩
          · exact fun x hx => closedAt_grow (subsumes_markRef st _) id id id (hc x hx)
          · exact lookup_isSome_of_mem (hmono.2.2.2.2.1.subset (List.mem_cons_self _ _))
        · split at h
          · exact Except.noConfusion h
          · rename_i hguard tn target heq
            have hmono := step_mono s fuel _ _ _ h
            obtain ⟨hcl, _⟩ := ih _ _ _ (by exact hk) h
            refine ⟨fun P hc => hcl P ?_, ?_⟩
            · exact fun x hx => closedAt_grow (subsumes_markRef st _) id id id (hc x hx)
            · exact lookup_isSome_of_mem (hmono.2.2.2.2.1.subset (List.mem_cons_self _ _))
    | hash h0 =>
      simp only [step] at h
      split at h
      · rename_i hguard
        simp only [Except.ok.injEq] at h; subst h
        refine ⟨fun _ hc => hc, ?_⟩
        show h0 ∈ st.union
        simp only [WalkState.union, Finset.mem_union]
        tauto
      · split at h
        · exact Except.noConfusion h
        · obtain ⟨hcl, hpost⟩ := ih _ _ _ hk h
          exact ⟨hcl, hpost⟩
    | obj h0 o =>
      cases o with
      | tag t1 =>
        simp only [step] at h
        obtain ⟨hcl, hpost⟩ := ih _ _ _ hk h
        exact ⟨hcl, Finset.mem_union_left _ (Finset.mem_union_left _
          (Finset.mem_union_left _ hpost))⟩
      | commit t1 ps1 =>
        simp only [step] at h
        obtain ⟨hcl, hpost⟩ := ih _ _ _ hk h
        exact ⟨hcl, Finset.mem_union_left _ (Finset.mem_union_left _
          (Finset.mem_union_right _ hpost))⟩
      | tree es1 =>
        simp only [step] at h
        obtain ⟨hcl, hpost⟩ := ih _ _ _ hk h
        exact ⟨hcl, Finset.mem_union_left _ (Finset.mem_union_right _ hpost)⟩
      | blob =>
        simp only [step, Except.ok.injEq] at h
        subst h
        refine ⟨fun P hc => closedE_neutral (subsumes_markBlob st h0) rfl rfl rfl hc, ?_⟩
        exact Finset.mem_union_right _ (Finset.mem_insert_self _ _)
    | tag h0 =>
      simp only [step] at h
      split at h
      · rename_i hguard
        simp only [Except.ok.injEq] at h; subst h
        exact ⟨fun _ hc => hc, hguard⟩
      · rename_i hguard
        split at h
        · exact Except.noConfusion h
        · rename_i tgt heq
          have hk1 : Kind3 s
              ⟨st.refs, insert h0 st.tags, st.commits, st.trees, st.blobs,
               st.edges ++ [(h0, tgt)]⟩ := by
            refine ⟨?_, hk.2.1, hk.2.2⟩
            intro x hx
            rcases Finset.mem_insert.mp hx with hx | hx
            · subst hx; exact ⟨tgt, heq⟩
            · exact hk.1 x hx
          obtain ⟨hcl, hpost⟩ := ih _ _ _ hk1 h
          have hk' := step_kind3 s fuel _ _ _ hk1 h
          have hmono := step_mono s fuel _ _ _ h
          constructor
          · intro P hc
            have hc' := hcl _ (closedE_markTag hc)
            intro x hx
            by_cases hxh : x = h0
            · subst hxh
              refine ⟨fun _ => ⟨tgt, heq, ?_, hpost⟩, fun hm => ?_, fun hm => ?_⟩
              · exact hmono.2.2.2.2.2 _ (by simp)
              · obtain ⟨pr, hgc⟩ := hk'.2.1 x hm
                exact absurd (kindClash_tag_commit heq hgc) not_false
              · obtain ⟨es, hgt⟩ := hk'.2.2 x hm
                exact absurd (kindClash_tag_tree heq hgt) not_false
            · exact hc' x (fun hmem => by
                rcases Finset.mem_insert.mp hmem with hmem | hmem
                · exact hxh hmem
                · exact hx hmem)
          · exact hmono.1 (Finset.mem_insert_self _ _)
    | commit h0 =>
      simp only [step] at h
      split at h
      · rename_i hguard
        simp only [Except.ok.injEq] at h; subst h
        exact ⟨fun _ hc => hc, hguard⟩
      · rename_i hguard
        split at h
        · exact Except.noConfusion h
        · rename_i th ps heq
          split at h
          · exact Except.noConfusion h
          · rename_i st3 heq3
            have hk1 : Kind3 s
                ⟨st.refs, st.tags, insert h0 st.commits, st.trees, st.blobs,
                 st.edges ++ (ps.map (fun p => (h0, p)) ++ [(h0, th)])⟩ := by
              refine ⟨hk.1, ?_, hk.2.2⟩
              intro x hx
              rcases Finset.mem_insert.mp hx with hx | hx
              · subst hx; exact ⟨(th, ps), heq⟩
              · exact hk.2.1 x hx
            obtain ⟨hcl1, hpost1⟩ := ih _ _ _ hk1 heq3
            have hk3 := step_kind3 s fuel _ _ _ hk1 heq3
            obtain ⟨hcl2, hpost2⟩ := ih _ _ _ hk3 h
            have hk' := step_kind3 s fuel _ _ _ hk3 h
            have hm1 := step_mono s fuel _ _ _ heq3
            have hm2 := step_mono s fuel _ _ _ h
            constructor
            · intro P hc
              have hc' := hcl2 _ (hcl1 _ (closedE_markCommit hc))
              intro x hx
              by_cases hxh : x = h0
              · subst hxh
                refine ⟨fun hm => ?_, fun _ => ⟨th, ps, heq, ?_, ?_, ?_⟩, fun hm => ?_⟩
                · obtain ⟨tg, hgt⟩ := hk'.1 x hm
                  exact absurd (kindClash_tag_commit hgt heq) not_false
                · exact hm2.2.2.1 hpost1
                · refine hm2.2.2.2.2.2 _ (hm1.2.2.2.2.2 _ ?_)
                  simp
                · intro p hp
                  refine ⟨hpost2 p hp, ?_⟩
                  refine hm2.2.2.2.2.2 _ (hm1.2.2.2.2.2 _ ?_)
                  simp only [List.mem_append, List.mem_map]
                  exact Or.inr (Or.inl ⟨p, hp, rfl⟩)
                · obtain ⟨es, hgt⟩ := hk'.2.2 x hm
                  exact absurd (kindClash_commit_tree heq hgt) not_false
              · exact hc' x (fun hmem => by
                  rcases Finset.mem_insert.mp hmem with hmem | hmem
                  · exact hxh hmem
                  · exact hx hmem)
            · exact hm2.2.1 (hm1.2.1 (Finset.mem_insert_self _ _))
    | tree h0 =>
      simp only [step] at h
      split at h
      · rename_i hguard
        simp only [Except.ok.injEq] at h; subst h
        exact ⟨fun _ hc => hc, hguard⟩
      · rename_i hguard
        split at h
        · exact Except.noConfusion h
        · rename_i es heq
          have hk1 : Kind3 s
              ⟨st.refs, st.tags, st.commits, insert h0 st.trees, st.blobs, st.edges⟩ := by
            refine ⟨hk.1, hk.2.1, ?_⟩
            intro x hx
            rcases Finset.mem_insert.mp hx with hx | hx
            · subst hx; exact ⟨es, heq⟩
            · exact hk.2.2 x hx
          obtain ⟨hcl, hpost⟩ := ih _ _ _ hk1 h
          have hk' := step_kind3 s fuel _ _ _ hk1 h
          have hmono := step_mono s fuel _ _ _ h
          constructor
          · intro P hc
            have hc' := hcl _ (closedE_markTree hc)
            intro x hx
            by_cases hxh : x = h0
            · subst hxh
              refine ⟨fun hm => ?_, fun hm => ?_, fun _ => ⟨es, heq, hpost⟩⟩
              · obtain ⟨tg, hgt⟩ := hk'.1 x hm
                exact absurd (kindClash_tag_tree hgt heq) not_false
              · obtain ⟨pr, hgc⟩ := hk'.2.1 x hm
                exact absurd (kindClash_commit_tree hgc heq) not_false
            · exact hc' x (fun hmem => by
                rcases Finset.mem_insert.mp hmem with hmem | hmem
                · exact hxh hmem
                · exact hx hmem)
          · exact hmono.2.2.1 (Finset.mem_insert_self _ _)
    | parents ps =>
      cases ps with
      | nil =>
        simp only [step, Except.ok.injEq] at h; subst h
        exact ⟨fun _ hc => hc, fun p hp => absurd hp (List.not_mem_nil p)⟩
      | cons p rest =>
        simp only [step] at h
        split at h
        · exact Except.noConfusion h
        · rename_i st1 heq1
          obtain ⟨hcl1, hp1⟩ := ih _ _ _ hk heq1
          have hk1 := step_kind3 s fuel _ _ _ hk heq1
          obtain ⟨hcl2, hp2⟩ := ih _ _ _ hk1 h
          have hm2 := step_mono s fuel _ _ _ h
          refine ⟨fun P hc => hcl2 P (hcl1 P hc), ?_⟩
          intro q hq
          rcases List.mem_cons.mp hq with hq | hq
          · subst hq; exact hm2.2.1 hp1
          · exact hp2 q hq
    | entries h0 es =>
      cases es with
      | nil =>
        simp only [step, Except.ok.injEq] at h; subst h
        exact ⟨fun _ hc => hc, fun e he => absurd he (List.not_mem_nil e)⟩
      | cons e rest =>
        obtain ⟨m, nm, eh⟩ := e
        cases m
        case empty =>
          simp only [step] at h
          obtain ⟨hcl, hpost⟩ := ih _ _ _ hk h
          refine ⟨hcl, ?_⟩
          intro e' he'
          rcases List.mem_cons.mp he' with he' | he'
          · subst he'
            exact ⟨fun hm => FileMode.noConfusion hm,
              fun hm => by simp [FileMode.isFile] at hm,
              fun hm => FileMode.noConfusion hm⟩
          · exact hpost e' he'
        case dir =>
          simp only [step] at h
          split at h
          · exact Except.noConfusion h
          · rename_i st1 heq1
            obtain ⟨hcl1, hp1⟩ := ih _ _ _ (by exact hk) heq1
            have hk1 := step_kind3 s fuel _ _ _ (by exact hk) heq1
            obtain ⟨hcl2, hp2⟩ := ih _ _ _ hk1 h
            have hm1 := step_mono s fuel _ _ _ heq1
            have hm2 := step_mono s fuel _ _ _ h
            constructor
            · intro P hc
              exact hcl2 P (hcl1 P (closedE_neutral (subsumes_edges st _) rfl rfl rfl hc))
            · intro e' he'
              rcases List.mem_cons.mp he' with he' | he'
              · subst he'
                refine ⟨fun _ => ⟨?_, hm2.2.2.1 hp1⟩,
                  fun hm => by simp [FileMode.isFile] at hm,
                  fun hm => FileMode.noConfusion hm⟩
                exact hm2.2.2.2.2.2 _ (hm1.2.2.2.2.2 _ (by simp))
              · exact hp2 e' he'
        case submodule =>
          simp only [step] at h
          split at h
          · exact Except.noConfusion h
          · rename_i st1 heq1
            obtain ⟨hcl1, hp1⟩ := ih _ _ _ (by exact hk) heq1
            have hk1 := step_kind3 s fuel _ _ _ (by exact hk) heq1
            obtain ⟨hcl2, hp2⟩ := ih _ _ _ hk1 h
            have hm1 := step_mono s fuel _ _ _ heq1
            have hm2 := step_mono s fuel _ _ _ h
            constructor
            · intro P hc
              exact hcl2 P (hcl1 P (closedE_neutral (subsumes_edges st _) rfl rfl rfl hc))
            · intro e' he'
              rcases List.mem_cons.mp he' with he' | he'
              · subst he'
                refine ⟨fun hm => FileMode.noConfusion hm,
                  fun hm => by simp [FileMode.isFile] at hm,
                  fun _ => ⟨?_, hm2.2.1 hp1⟩⟩
                exact hm2.2.2.2.2.2 _ (hm1.2.2.2.2.2 _ (by simp))
              · exact hp2 e' he'
        case regular =>
          simp only [step] at h
          obtain ⟨hcl, hpost⟩ := ih _ _ _ (by exact hk) h
          have hmono := step_mono s fuel _ _ _ h
          constructor
          · intro P hc
            exact hcl P (closedE_neutral (subsumes_fileMark st h0 eh) rfl rfl rfl hc)
          · intro e' he'
            rcases List.mem_cons.mp he' with he' | he'
            · subst he'
              refine ⟨fun hm => FileMode.noConfusion hm,
                fun _ => ⟨?_, hmono.2.2.2.1 (Finset.mem_insert_self _ _)⟩,
                fun hm => FileMode.noConfusion hm⟩
              exact hmono.2.2.2.2.2 _ (by simp)
            · exact hpost e' he'
        case deprecated =>
          simp only [step] at h
          obtain ⟨hcl, hpost⟩ := ih _ _ _ (by exact hk) h
          have hmono := step_mono s fuel _ _ _ h
          constructor
          · intro P hc
            exact hcl P (closedE_neutral (subsumes_fileMark st h0 eh) rfl rfl rfl hc)
          · intro e' he'
            rcases List.mem_cons.mp he' with he' | he'
            · subst he'
              refine ⟨fun hm => FileMode.noConfusion hm,
                fun _ => ⟨?_, hmono.2.2.2.1 (Finset.mem_insert_self _ _)⟩,
                fun hm => FileMode.noConfusion hm⟩
              exact hmono.2.2.2.2.2 _ (by simp)
            · exact hpost e' he'
        case executable =>
          simp only [step] at h
          obtain ⟨hcl, hpost⟩ := ih _ _ _ (by exact hk) h
          have hmono := step_mono s fuel _ _ _ h
          constructor
          · intro P hc
            exact hcl P (closedE_neutral (subsumes_fileMark st h0 eh) rfl rfl rfl hc)
          · intro e' he'
            rcases List.mem_cons.mp he' with he' | he'
            · subst he'
              refine ⟨fun hm => FileMode.noConfusion hm,
                fun _ => ⟨?_, hmono.2.2.2.1 (Finset.mem_insert_self _ _)⟩,
                fun hm => FileMode.noConfusion hm⟩
              exact hmono.2.2.2.2.2 _ (by simp)
            · exact hpost e' he'
        case symlink =>
          simp only [step] at h
          obtain ⟨hcl, hpost⟩ := ih _ _ _ (by exact hk) h
          have hmono := step_mono s fuel _ _ _ h
          constructor
          · intro P hc
            exact hcl P (closedE_neutral (subsumes_fileMark st h0 eh) rfl rfl rfl hc)
          · intro e' he'
            rcases List.mem_cons.mp he' with he' | he'
            · subst he'
              refine ⟨fun hm => FileMode.noConfusion hm,
                fun _ => ⟨?_, hmono.2.2.2.1 (Finset.mem_insert_self _ _)⟩,
                fun hm => FileMode.noConfusion hm⟩
              exact hmono.2.2.2.2.2 _ (by simp)
            · exact hpost e' he'

/-! ### Kind soundness of the blob set under mode consistency -/

theorem findObj_mem {s : Store} {h : Hash} {o : Obj} (hf : s.findObj h = some o) :
    (h, o) ∈ s.objects := by
  unfold Store.findObj at hf
  rcases Option.map_eq_some'.mp hf with ⟨p, hfind, hp2⟩
  have hbeq := List.find?_some hfind
  have h1 : p.1 = h := by simpa using hbeq
  have hmem := List.mem_of_find?_eq_some hfind
  have : p = (h, o) := by
    obtain ⟨a, b⟩ := p
    simp only at h1 hp2
    rw [h1, hp2]
  rw [this] at hmem
  exact hmem

theorem step_blobs (s : Store) (hcons : FileModeConsistent s) :
    ∀ (fuel : Nat) (st : WalkState) (t : Task) (st' : WalkState),
      (∀ x ∈ st.blobs, s.findObj x = none ∨ s.findObj x = some Obj.blob) →
      TaskKind s t → step s fuel st t = .ok st' →
      ∀ x ∈ st'.blobs, s.findObj x = none ∨ s.findObj x = some Obj.blob := by
  intro fuel
  induction fuel with
  | zero => intro st t st' _ _ h; exact Except.noConfusion h
  | succ fuel ih =>
    intro st t st' hb htk h
    cases t with
    | ref r =>
      simp only [step] at h
      split at h
      · simp only [Except.ok.injEq] at h; subst h; exact hb
      · split at h
        · exact ih _ _ _ (by exact hb) (by exact trivial) h
        · split at h
          · exact Except.noConfusion h
          · exact ih _ _ _ (by exact hb) (by exact trivial) h
    | hash h0 =>
      simp only [step] at h
      split at h
      · simp only [Except.ok.injEq] at h; subst h; exact hb
      · split at h
        · exact Except.noConfusion h
        · rename_i o heq
          exact ih _ _ _ hb (by exact heq) h
    | obj h0 o =>
      cases o with
      | tag t1 => simp only [step] at h; exact ih _ _ _ hb (by exact trivial) h
      | commit t1 ps1 => simp only [step] at h; exact ih _ _ _ hb (by exact trivial) h
      | tree es1 => simp only [step] at h; exact ih _ _ _ hb (by exact trivial) h
      | blob =>
        simp only [step, Except.ok.injEq] at h
        subst h
        intro x hx
        rcases Finset.mem_insert.mp hx with hx | hx
        · subst hx; exact Or.inr htk
        · exact hb x hx
    | tag h0 =>
      simp only [step] at h
      split at h
      · simp only [Except.ok.injEq] at h; subst h; exact hb
      · split at h
        · exact Except.noConfusion h
        · exact ih _ _ _ (by exact hb) (by exact trivial) h
    | commit h0 =>
      simp only [step] at h
      split at h
      · simp only [Except.ok.injEq] at h; subst h; exact hb
      · split at h
        · exact Except.noConfusion h
        · split at h
          · exact Except.noConfusion h
          · rename_i st3 heq3
            exact ih _ _ _ (ih _ _ _ (by exact hb) (by exact trivial) heq3) (by exact trivial) h
    | tree h0 =>
      simp only [step] at h
      split at h
      · simp only [Except.ok.injEq] at h; subst h; exact hb
      · split at h
        · exact Except.noConfusion h
        · rename_i es heq
          exact ih _ _ _ (by exact hb) (by exact ⟨[], heq⟩) h
    | parents ps =>
      cases ps with
      | nil => simp only [step, Except.ok.injEq] at h; subst h; exact hb
      | cons p rest =>
        simp only [step] at h
        split at h
        · exact Except.noConfusion h
        · rename_i st1 heq1
          exact ih _ _ _ (ih _ _ _ hb (by exact trivial) heq1) (by exact trivial) h
    | entries h0 es =>
      cases es with
      | nil => simp only [step, Except.ok.injEq] at h; subst h; exact hb
      | cons e rest =>
        obtain ⟨pre, hpre⟩ := htk
        obtain ⟨m, nm, eh⟩ := e
        have htl : TaskKind s (Task.entries h0 rest) := by
          refine ⟨pre ++ [⟨m, nm, eh⟩], ?_⟩
          rw [hpre, List.append_assoc]
          rfl
        cases m
        case empty =>
          simp only [step] at h
          exact ih _ _ _ hb (by exact htl) h
        case dir =>
          simp only [step] at h
          split at h
          · exact Except.noConfusion h
          · rename_i st1 heq1
            exact ih _ _ _ (ih _ _ _ (by exact hb) (by exact trivial) heq1) (by exact htl) h
        case submodule =>
          simp only [step] at h
          split at h
          · exact Except.noConfusion h
          · rename_i st1 heq1
            exact ih _ _ _ (ih _ _ _ (by exact hb) (by exact trivial) heq1) (by exact htl) h
        case regular =>
          simp only [step] at h
          refine ih _ _ _ ?_ (by exact htl) h
          intro x hx
          rcases Finset.mem_insert.mp hx with hx | hx
          · rcases hx with rfl
            exact hcons _ (findObj_mem (getTree_some hpre))
              ⟨FileMode.regular, nm, x⟩ (by simp [entriesOf]) rfl
          · exact hb x hx
        case deprecated =>
          simp only [step] at h
          refine ih _ _ _ ?_ (by exact htl) h
          intro x hx
          rcases Finset.mem_insert.mp hx with hx | hx
          · rcases hx with rfl
            exact hcons _ (findObj_mem (getTree_some hpre))
              ⟨FileMode.deprecated, nm, x⟩ (by simp [entriesOf]) rfl
          · exact hb x hx
        case executable =>
          simp only [step] at h
          refine ih _ _ _ ?_ (by exact htl) h
          intro x hx
          rcases Finset.mem_insert.mp hx with hx | hx
          · rcases hx with rfl
            exact hcons _ (findObj_mem (getTree_some hpre))
              ⟨FileMode.executable, nm, x⟩ (by simp [entriesOf]) rfl
          · exact hb x hx
        case symlink =>
          simp only [step] at h
          refine ih _ _ _ ?_ (by exact htl) h
          intro x hx
          rcases Finset.mem_insert.mp hx with hx | hx
          · rcases hx with rfl
            exact hcons _ (findObj_mem (getTree_some hpre))
              ⟨FileMode.symlink, nm, x⟩ (by simp [entriesOf]) rfl
          · exact hb x hx

/-! ### Reach soundness: the walk only classifies reachable hashes -/

theorem mem_union_iff {st : WalkState} {x : Hash} :
    x ∈ st.union ↔ x ∈ st.tags ∨ x ∈ st.commits ∨ x ∈ st.trees ∨ x ∈ st.blobs := by
  simp only [WalkState.union, Finset.mem_union]
  tauto

theorem step_reach (s : Store) (roots : List Hash) :
    ∀ (fuel : Nat) (st : WalkState) (t : Task) (st' : WalkState),
      TaskReach s roots t → (∀ x ∈ st.union, Reach s roots x) →
      step s fuel st t = .ok st' → ∀ x ∈ st'.union, Reach s roots x := by
  intro fuel
  induction fuel with
  | zero => intro st t st' _ _ h; exact Except.noConfusion h
  | succ fuel ih =>
    intro st t st' htr hr h
    cases t with
    | ref r => exact absurd htr (by simp [TaskReach])
    | hash h0 =>
      simp only [step] at h
      split at h
      · simp only [Except.ok.injEq] at h; subst h; exact hr
      · split at h
        · exact Except.noConfusion h
        · rename_i o heq
          exact ih _ _ _ (by exact ⟨htr, heq⟩) hr h
    | obj h0 o =>
      cases o with
      | tag t1 => simp only [step] at h; exact ih _ _ _ (by exact htr.1) hr h
      | commit t1 ps1 => simp only [step] at h; exact ih _ _ _ (by exact htr.1) hr h
      | tree es1 => simp only [step] at h; exact ih _ _ _ (by exact htr.1) hr h
      | blob =>
        simp only [step, Except.ok.injEq] at h
        subst h
        intro x hx
        rcases mem_union_iff.mp hx with hx | hx | hx | hx
        · exact hr x (mem_union_iff.mpr (Or.inl hx))
        · exact hr x (mem_union_iff.mpr (Or.inr (Or.inl hx)))
        · exact hr x (mem_union_iff.mpr (Or.inr (Or.inr (Or.inl hx))))
        · rcases Finset.mem_insert.mp hx with hx | hx
          · subst hx; exact htr.1
          · exact hr x (mem_union_iff.mpr (Or.inr (Or.inr (Or.inr hx))))
    | tag h0 =>
      simp only [step] at h
      split at h
      · simp only [Except.ok.injEq] at h; subst h; exact hr
      · split at h
        · exact Except.noConfusion h
        · rename_i tgt heq
          refine ih _ _ _ (by exact Reach.tagTarget htr (getTag_some heq)) ?_ h
          intro x hx
          rcases mem_union_iff.mp hx with hx | hx | hx | hx
          · rcases Finset.mem_insert.mp hx with hx | hx
            · subst hx; exact htr
            · exact hr x (mem_union_iff.mpr (Or.inl hx))
          · exact hr x (mem_union_iff.mpr (Or.inr (Or.inl hx)))
          · exact hr x (mem_union_iff.mpr (Or.inr (Or.inr (Or.inl hx))))
          · exact hr x (mem_union_iff.mpr (Or.inr (Or.inr (Or.inr hx))))
    | commit h0 =>
      simp only [step] at h
      split at h
      · simp only [Except.ok.injEq] at h; subst h; exact hr
      · split at h
        · exact Except.noConfusion h
        · rename_i th ps heq
          split at h
          · exact Except.noConfusion h
          · rename_i st3 heq3
            have hfo := getCommit_some heq
            have hr1 : ∀ x ∈ (⟨st.refs, st.tags, insert h0 st.commits, st.trees, st.blobs,
                st.edges ++ (ps.map (fun p => (h0, p)) ++ [(h0, th)])⟩ : WalkState).union,
                Reach s roots x := by
              intro x hx
              rcases mem_union_iff.mp hx with hx | hx | hx | hx
              · exact hr x (mem_union_iff.mpr (Or.inl hx))
              · rcases Finset.mem_insert.mp hx with hx | hx
                · subst hx; exact htr
                · exact hr x (mem_union_iff.mpr (Or.inr (Or.inl hx)))
              · exact hr x (mem_union_iff.mpr (Or.inr (Or.inr (Or.inl hx))))
              · exact hr x (mem_union_iff.mpr (Or.inr (Or.inr (Or.inr hx))))
            have hr3 := ih _ _ _ (by exact Reach.commitTree htr hfo) hr1 heq3
            exact ih _ _ _ (by exact fun p hp => Reach.commitParent htr hfo hp) hr3 h
    | tree h0 =>
      simp only [step] at h
      split at h
      · simp only [Except.ok.injEq] at h; subst h; exact hr
      · split at h
        · exact Except.noConfusion h
        · rename_i es heq
          refine ih _ _ _ (by exact ⟨htr, [], heq⟩) ?_ h
          intro x hx
          rcases mem_union_iff.mp hx with hx | hx | hx | hx
          · exact hr x (mem_union_iff.mpr (Or.inl hx))
          · exact hr x (mem_union_iff.mpr (Or.inr (Or.inl hx)))
          · rcases Finset.mem_insert.mp hx with hx | hx
            · subst hx; exact htr
            · exact hr x (mem_union_iff.mpr (Or.inr (Or.inr (Or.inl hx))))
          · exact hr x (mem_union_iff.mpr (Or.inr (Or.inr (Or.inr hx))))
    | parents ps =>
      cases ps with
      | nil => simp only [step, Except.ok.injEq] at h; subst h; exact hr
      | cons p rest =>
        simp only [step] at h
        split at h
        · exact Except.noConfusion h
        · rename_i st1 heq1
          have hr1 := ih _ _ _ (by exact htr p (List.mem_cons_self _ _)) hr heq1
          exact ih _ _ _ (by exact fun q hq => htr q (List.mem_cons_of_mem _ hq)) hr1 h
    | entries h0 es =>
      cases es with
      | nil => simp only [step, Except.ok.injEq] at h; subst h; exact hr
      | cons e rest =>
        obtain ⟨hre, pre, hpre⟩ := htr
        obtain ⟨m, nm, eh⟩ := e
        have hfo := getTree_some hpre
        have hmem : (⟨m, nm, eh⟩ : TreeEntry) ∈ pre ++ ⟨m, nm, eh⟩ :: rest := by simp
        have htl : TaskReach s roots (Task.entries h0 rest) := by
          refine ⟨hre, pre ++ [⟨m, nm, eh⟩], ?_⟩
          rw [hpre, List.append_assoc]
          rfl
        cases m
        case empty =>
          simp only [step] at h
          exact ih _ _ _ (by exact htl) hr h
        case dir =>
          simp only [step] at h
          split at h
          · exact Except.noConfusion h
          · rename_i st1 heq1
            have hreh : Reach s roots eh :=
              Reach.treeEntry hre hfo hmem (by intro hcon; exact FileMode.noConfusion hcon)
            have hr1 := ih _ _ _ (by exact hreh) (by exact hr) heq1
            exact ih _ _ _ (by exact htl) hr1 h
        case submodule =>
          simp only [step] at h
          split at h
          · exact Except.noConfusion h
          · rename_i st1 heq1
            have hreh : Reach s roots eh :=
              Reach.treeEntry hre hfo hmem (by intro hcon; exact FileMode.noConfusion hcon)
            have hr1 := ih _ _ _ (by exact hreh) (by exact hr) heq1
            exact ih _ _ _ (by exact htl) hr1 h
        all_goals {
          simp only [step] at h
          have hreh : Reach s roots eh :=
            Reach.treeEntry hre hfo hmem (by intro hcon; exact FileMode.noConfusion hcon)
          refine ih _ _ _ (by exact htl) ?_ h
          intro x hx
          rcases mem_union_iff.mp hx with hx | hx | hx | hx
          · exact hr x (mem_union_iff.mpr (Or.inl hx))
          · exact hr x (mem_union_iff.mpr (Or.inr (Or.inl hx)))
          · exact hr x (mem_union_iff.mpr (Or.inr (Or.inr (Or.inl hx))))
          · rcases Finset.mem_insert.mp hx with hx | hx
            · subst hx; exact hreh
            · exact hr x (mem_union_iff.mpr (Or.inr (Or.inr (Or.inr hx))))
        }

/-! ### Mentioned-hash lemmas and the termination measure -/

theorem mentioned_of_obj {s : Store} {h : Hash} {o : Obj} (hf : (h, o) ∈ s.objects) :
    ∀ x, x ∈ h :: objMentions o → x ∈ mentionedHashes s := by
  intro x hx
  unfold mentionedHashes storeMentions
  rw [List.mem_toFinset]
  refine List.mem_append.mpr (Or.inl ?_)
  rw [List.mem_flatten]
  exact ⟨h :: objMentions o, List.mem_map.mpr ⟨(h, o), hf, rfl⟩, hx⟩

theorem mentioned_of_refTarget {s : Store} {r : Reference} {h : Hash}
    (hr : r ∈ s.references) (ht : r.target = RefTarget.hashRef h) :
    h ∈ mentionedHashes s := by
  unfold mentionedHashes storeMentions
  rw [List.mem_toFinset]
  refine List.mem_append.mpr (Or.inr ?_)
  rw [List.mem_flatten]
  refine ⟨[h], List.mem_map.mpr ⟨r, hr, ?_⟩, by simp⟩
  rw [ht]

theorem findRef_mem {s : Store} {n : String} {r : Reference}
    (hf : s.findRef n = some r) : r ∈ s.references :=
  List.mem_of_find?_eq_some hf

theorem objLen_le {s : Store} {h : Hash} {o : Obj} (hf : (h, o) ∈ s.objects) :
    (objMentions o).length ≤ maxObjLen s := by
  unfold maxObjLen
  have : ∀ l : List (Hash × Obj), (h, o) ∈ l →
      (objMentions o).length ≤ l.foldr (fun q acc => max (objMentions q.2).length acc) 0 := by
    intro l hp
    induction l with
    | nil => cases hp
    | cons q rest ih =>
      simp only [List.foldr]
      rcases List.mem_cons.mp hp with heq | hp2
      · rw [← heq]; exact le_max_left _ _
      · exact le_trans (ih hp2) (le_max_right _ _)
  exact this s.objects hf

theorem refs_length_le {RS : Finset String} {l : List (String × Reference)}
    (h1 : ∀ p ∈ l, p.1 ∈ RS) (h2 : (l.map Prod.fst).Nodup) : l.length ≤ RS.card := by
  have hc : (l.map Prod.fst).toFinset.card = (l.map Prod.fst).length :=
    List.toFinset_card_of_nodup h2
  have hsub : (l.map Prod.fst).toFinset ⊆ RS := by
    intro x hx
    rw [List.mem_toFinset] at hx
    rcases List.mem_map.mp hx with ⟨p, hp, hfx⟩
    rw [← hfx]
    exact h1 p hp
  calc l.length = (l.map Prod.fst).length := (List.length_map _ _).symm
    _ = (l.map Prod.fst).toFinset.card := hc.symm
    _ ≤ RS.card := Finset.card_le_card hsub

theorem not_mem_keys_of_lookup_not_isSome {l : List (String × Reference)} {a : String}
    (h : ¬(l.lookup a).isSome = true) : a ∉ l.map Prod.fst := by
  intro hmem
  rcases List.mem_map.mp hmem with ⟨p, hp, hfst⟩
  obtain ⟨k, v⟩ := p
  simp only at hfst
  subst hfst
  exact h (lookup_isSome_of_mem hp)

theorem marksLeft_mono {HS : Finset Hash} {RS : Finset String} {st st' : WalkState}
    (hsub : Subsumes st st') : marksLeft HS RS st' ≤ marksLeft HS RS st := by
  unfold marksLeft
  have h1 := Finset.card_le_card hsub.1
  have h2 := Finset.card_le_card hsub.2.1
  have h3 := Finset.card_le_card hsub.2.2.1
  have h4 := hsub.2.2.2.2.1.length_le
  omega

theorem marksLeft_markTag {HS : Finset Hash} {RS : Finset String} {st : WalkState}
    {h0 : Hash} (hi : Inv HS RS st) (hin : h0 ∈ HS) (hnot : h0 ∉ st.tags)
    (es : List (Hash × Hash)) :
    marksLeft HS RS
      ⟨st.refs, insert h0 st.tags, st.commits, st.trees, st.blobs, st.edges ++ es⟩ + 1
      ≤ marksLeft HS RS st := by
  unfold marksLeft
  simp only
  rw [Finset.card_insert_of_not_mem hnot]
  have h1 := Finset.card_le_card (Finset.insert_subset hin hi.1)
  rw [Finset.card_insert_of_not_mem hnot] at h1
  have h2 := Finset.card_le_card hi.2.1
  have h3 := Finset.card_le_card hi.2.2.1
  have h4 := refs_length_le hi.2.2.2.1 hi.2.2.2.2
  omega

theorem marksLeft_markCommit {HS : Finset Hash} {RS : Finset String} {st : WalkState}
    {h0 : Hash} (hi : Inv HS RS st) (hin : h0 ∈ HS) (hnot : h0 ∉ st.commits)
    (es : List (Hash × Hash)) :
    marksLeft HS RS
      ⟨st.refs, st.tags, insert h0 st.commits, st.trees, st.blobs, st.edges ++ es⟩ + 1
      ≤ marksLeft HS RS st := by
  unfold marksLeft
  simp only
  rw [Finset.card_insert_of_not_mem hnot]
  have h1 := Finset.card_le_card hi.1
  have h2 := Finset.card_le_card (Finset.insert_subset hin hi.2.1)
  rw [Finset.card_insert_of_not_mem hnot] at h2
  have h3 := Finset.card_le_card hi.2.2.1
  have h4 := refs_length_le hi.2.2.2.1 hi.2.2.2.2
  omega

theorem marksLeft_markTree {HS : Finset Hash} {RS : Finset String} {st : WalkState}
    {h0 : Hash} (hi : Inv HS RS st) (hin : h0 ∈ HS) (hnot : h0 ∉ st.trees) :
    marksLeft HS RS
      ⟨st.refs, st.tags, st.commits, insert h0 st.trees, st.blobs, st.edges⟩ + 1
      ≤ marksLeft HS RS st := by
  unfold marksLeft
  simp only
  rw [Finset.card_insert_of_not_mem hnot]
  have h1 := Finset.card_le_card hi.1
  have h2 := Finset.card_le_card hi.2.1
  have h3 := Finset.card_le_card (Finset.insert_subset hin hi.2.2.1)
  rw [Finset.card_insert_of_not_mem hnot] at h3
  have h4 := refs_length_le hi.2.2.2.1 hi.2.2.2.2
  omega

theorem marksLeft_markRef {HS : Finset Hash} {RS : Finset String} {st : WalkState}
    {p : String × Reference} (hi : Inv HS RS st) (hin : p.1 ∈ RS)
    (hnot : p.1 ∉ st.refs.map Prod.fst) :
    marksLeft HS RS
      ⟨p :: st.refs, st.tags, st.commits, st.trees, st.blobs, st.edges⟩ + 1
      ≤ marksLeft HS RS st := by
  unfold marksLeft
  simp only [List.length_cons]
  have h1 := Finset.card_le_card hi.1
  have h2 := Finset.card_le_card hi.2.1
  have h3 := Finset.card_le_card hi.2.2.1
  have h4 : (p :: st.refs).length ≤ RS.card := by
    refine refs_length_le ?_ ?_
    · intro q hq
      rcases List.mem_cons.mp hq with rfl | hq
      · exact hin
      · exact hi.2.2.2.1 q hq
    · simp only [List.map_cons, List.nodup_cons]
      exact ⟨hnot, hi.2.2.2.2⟩
  simp only [List.length_cons] at h4
  omega

theorem fuel_arith_lt {A m3 m c c3 fuel : Nat} (h1 : m3 + 1 ≤ m)
    (h2 : A * m + c ≤ fuel + 1) (h3 : c3 + 1 ≤ c + A) : A * m3 + c3 ≤ fuel := by
  have h4 : A * m3 + A ≤ A * m := by
    have h5 := Nat.mul_le_mul_left A h1
    rwa [Nat.mul_add, Nat.mul_one] at h5
  linarith

theorem fuel_arith_le {A m3 m c c3 fuel : Nat} (h1 : m3 ≤ m)
    (h2 : A * m + c ≤ fuel + 1) (h3 : c3 + 1 ≤ c) : A * m3 + c3 ≤ fuel := by
  have h4 : A * m3 ≤ A * m := Nat.mul_le_mul_left A h1
  linarith

/-- The termination invariant is preserved by every successful step. -/
theorem step_inv (s : Store) (HS : Finset Hash) (RS : Finset String)
    (hHS : mentionedHashes s ⊆ HS) (hRS : ∀ r ∈ s.references, r.name ∈ RS) :
    ∀ (fuel : Nat) (st : WalkState) (t : Task) (st' : WalkState),
      Inv HS RS st → TaskHS s HS t → step s fuel st t = .ok st' → Inv HS RS st' := by
  intro fuel
  induction fuel with
  | zero => intro st t st' _ _ h; exact Except.noConfusion h
  | succ fuel ih =>
    intro st t st' hi htk h
    cases t with
    | ref r =>
      simp only [step] at h
      split at h
      · simp only [Except.ok.injEq] at h; subst h; exact hi
      · rename_i hguard
        have hnew : Inv HS RS
            ⟨(r.name, r) :: st.refs, st.tags, st.commits, st.trees, st.blobs, st.edges⟩ := by
          refine ⟨hi.1, hi.2.1, hi.2.2.1, ?_, ?_⟩
          · intro p hp
            rcases List.mem_cons.mp hp with rfl | hp
            · exact hRS r htk
            · exact hi.2.2.2.1 p hp
          · simp only [List.map_cons, List.nodup_cons]
            exact ⟨not_mem_keys_of_lookup_not_isSome (by simpa using hguard), hi.2.2.2.2⟩
        split at h
        · rename_i h1 heqt
          exact ih _ _ _ hnew (by exact hHS (mentioned_of_refTarget htk heqt)) h
        · split at h
          · exact Except.noConfusion h
          · rename_i heqr
            exact ih _ _ _ hnew (by exact findRef_mem heqr) h
    | hash h0 =>
      simp only [step] at h
      split at h
      · simp only [Except.ok.injEq] at h; subst h; exact hi
      · split at h
        · exact Except.noConfusion h
        · exact ih _ _ _ hi (by exact htk) h
    | obj h0 o =>
      cases o with
      | tag t1 => simp only [step] at h; exact ih _ _ _ hi (by exact htk) h
      | commit t1 ps1 => simp only [step] at h; exact ih _ _ _ hi (by exact htk) h
      | tree es1 => simp only [step] at h; exact ih _ _ _ hi (by exact htk) h
      | blob =>
        simp only [step, Except.ok.injEq] at h
        subst h
        exact hi
    | tag h0 =>
      simp only [step] at h
      split at h
      · simp only [Except.ok.injEq] at h; subst h; exact hi
      · split at h
        · exact Except.noConfusion h
        · rename_i tgt heq
          have hmem := findObj_mem (getTag_some heq)
          refine ih _ _ _ ?_ ?_ h
          · refine ⟨Finset.insert_subset htk hi.1, hi.2.1, hi.2.2.1,
              hi.2.2.2.1, hi.2.2.2.2⟩
          · exact hHS (mentioned_of_obj hmem tgt (by simp [objMentions]))
    | commit h0 =>
      simp only [step] at h
      split at h
      · simp only [Except.ok.injEq] at h; subst h; exact hi
      · split at h
        · exact Except.noConfusion h
        · rename_i th ps heq
          split at h
          · exact Except.noConfusion h
          · rename_i st3 heq3
            have hmem := findObj_mem (getCommit_some heq)
            have hinv1 : Inv HS RS
                ⟨st.refs, st.tags, insert h0 st.commits, st.trees, st.blobs,
                 st.edges ++ (ps.map (fun p => (h0, p)) ++ [(h0, th)])⟩ :=
              ⟨hi.1, Finset.insert_subset htk hi.2.1, hi.2.2.1, hi.2.2.2.1, hi.2.2.2.2⟩
            have hinv3 := ih _ _ _ hinv1
              (by exact hHS (mentioned_of_obj hmem th (by simp [objMentions]))) heq3
            refine ih _ _ _ hinv3 ?_ h
            intro p hp
            exact hHS (mentioned_of_obj hmem p (by simp [objMentions, hp]))
    | tree h0 =>
      simp only [step] at h
      split at h
      · simp only [Except.ok.injEq] at h; subst h; exact hi
      · split at h
        · exact Except.noConfusion h
        · rename_i es heq
          have hmem := findObj_mem (getTree_some heq)
          refine ih _ _ _ ?_ ?_ h
          · exact ⟨hi.1, hi.2.1, Finset.insert_subset htk hi.2.2.1,
              hi.2.2.2.1, hi.2.2.2.2⟩
          · intro e he
            exact hHS (mentioned_of_obj hmem e.hash
              (by simp only [objMentions, List.mem_cons, List.mem_map]
                  exact Or.inr ⟨e, he, rfl⟩))
    | parents ps =>
      cases ps with
      | nil => simp only [step, Except.ok.injEq] at h; subst h; exact hi
      | cons p rest =>
        simp only [step] at h
        split at h
        · exact Except.noConfusion h
        · rename_i st1 heq1
          have hinv1 := ih _ _ _ hi (by exact htk p (List.mem_cons_self _ _)) heq1
          exact ih _ _ _ hinv1 (by exact fun q hq => htk q (List.mem_cons_of_mem _ hq)) h
    | entries h0 es =>
      cases es with
      | nil => simp only [step, Except.ok.injEq] at h; subst h; exact hi
      | cons e rest =>
        obtain ⟨m, nm, eh⟩ := e
        have hhd : eh ∈ HS := htk ⟨m, nm, eh⟩ (List.mem_cons_self _ _)
        have htl : ∀ e2 ∈ rest, TreeEntry.hash e2 ∈ HS :=
          fun e2 he2 => htk e2 (List.mem_cons_of_mem _ he2)
        cases m
        case empty =>
          simp only [step] at h
          exact ih _ _ _ hi (by exact htl) h
        case dir =>
          simp only [step] at h
          split at h
          · exact Except.noConfusion h
          · rename_i st1 heq1
            have hinv1 := ih _ _ _ (by exact hi) (by exact hhd) heq1
            exact ih _ _ _ hinv1 (by exact htl) h
        case submodule =>
          simp only [step] at h
          split at h
          · exact Except.noConfusion h
          · rename_i st1 heq1
            have hinv1 := ih _ _ _ (by exact hi) (by exact hhd) heq1
            exact ih _ _ _ hinv1 (by exact htl) h
        case regular =>
          simp only [step] at h
          exact ih _ _ _ (by exact hi) (by exact htl) h
        case deprecated =>
          simp only [step] at h
          exact ih _ _ _ (by exact hi) (by exact htl) h
        case executable =>
          simp only [step] at h
          exact ih _ _ _ (by exact hi) (by exact htl) h
        case symlink =>
          simp only [step] at h
          exact ih _ _ _ (by exact hi) (by exact htl) h

/-- Sufficient fuel: with fuel at least the amplification factor times the
remaining-marks measure plus the cost of the work item, the walk never
exhausts its fuel — the termination guarantee of the visited-set gating. -/
theorem step_fuel (s : Store) (HS : Finset Hash) (RS : Finset String)
    (hHS : mentionedHashes s ⊆ HS) (hRS : ∀ r ∈ s.references, r.name ∈ RS) :
    ∀ (fuel : Nat) (st : WalkState) (t : Task),
      Inv HS RS st → TaskHS s HS t →
      stepAmp s * marksLeft HS RS st + taskCost t ≤ fuel →
      step s fuel st t ≠ .error .outOfFuel := by
  intro fuel
  induction fuel with
  | zero =>
    intro st t hi htk hb
    exfalso
    generalize stepAmp s * marksLeft HS RS st = K at hb
    cases t <;> simp [taskCost] at hb
  | succ fuel ih =>
    intro st t hi htk hb
    have hA : 3 ≤ stepAmp s := by unfold stepAmp; omega
    have hAe : stepAmp s = maxObjLen s + 3 := rfl
    cases t with
    | ref r =>
      simp only [taskCost] at hb
      simp only [step]
      split
      · intro hc; exact Except.noConfusion hc
      · rename_i hguard
        have hnm : r.name ∉ st.refs.map Prod.fst :=
          not_mem_keys_of_lookup_not_isSome (by simpa using hguard)
        have hRSr : r.name ∈ RS := hRS r htk
        have hnew : Inv HS RS
            ⟨(r.name, r) :: st.refs, st.tags, st.commits, st.trees, st.blobs, st.edges⟩ := by
          refine ⟨hi.1, hi.2.1, hi.2.2.1, ?_, ?_⟩
          · intro p hp
            rcases List.mem_cons.mp hp with rfl | hp
            · exact hRSr
            · exact hi.2.2.2.1 p hp
          · simp only [List.map_cons, List.nodup_cons]
            exact ⟨hnm, hi.2.2.2.2⟩
        have hml := marksLeft_markRef (p := (r.name, r)) hi hRSr hnm
        split
        · rename_i h1 heqt
          refine ih _ _ hnew (by exact hHS (mentioned_of_refTarget htk heqt)) ?_
          exact fuel_arith_lt hml hb (by simp only [taskCost]; omega)
        · split
          · intro hc; injection hc with hc2; exact Err.noConfusion hc2
          · rename_i heqr
            refine ih _ _ hnew (by exact findRef_mem heqr) ?_
            exact fuel_arith_lt hml hb (by simp only [taskCost]; omega)
    | hash h0 =>
      simp only [taskCost] at hb
      simp only [step]
      split
      · intro hc; exact Except.noConfusion hc
      · split
        · intro hc; injection hc with hc2; exact Err.noConfusion hc2
        · refine ih _ _ hi (by exact htk) ?_
          exact fuel_arith_le (le_refl _) hb (by simp only [taskCost]; omega)
    | obj h0 o =>
      simp only [taskCost] at hb
      cases o with
      | tag t1 =>
        simp only [step]
        refine ih _ _ hi (by exact htk) ?_
        exact fuel_arith_le (le_refl _) hb (by simp only [taskCost]; omega)
      | commit t1 ps1 =>
        simp only [step]
        refine ih _ _ hi (by exact htk) ?_
        exact fuel_arith_le (le_refl _) hb (by simp only [taskCost]; omega)
      | tree es1 =>
        simp only [step]
        refine ih _ _ hi (by exact htk) ?_
        exact fuel_arith_le (le_refl _) hb (by simp only [taskCost]; omega)
      | blob =>
        simp only [step]
        intro hc; exact Except.noConfusion hc
    | tag h0 =>
      simp only [taskCost] at hb
      simp only [step]
      split
      · intro hc; exact Except.noConfusion hc
      · rename_i hguard
        split
        · intro hc; injection hc with hc2; exact Err.noConfusion hc2
        · rename_i tgt heq
          have hmem := findObj_mem (getTag_some heq)
          have hinv1 : Inv HS RS
              ⟨st.refs, insert h0 st.tags, st.commits, st.trees, st.blobs,
               st.edges ++ [(h0, tgt)]⟩ :=
            ⟨Finset.insert_subset htk hi.1, hi.2.1, hi.2.2.1, hi.2.2.2.1, hi.2.2.2.2⟩
          have hml := marksLeft_markTag hi htk hguard [(h0, tgt)]
          refine ih _ _ hinv1
            (by exact hHS (mentioned_of_obj hmem tgt (by simp [objMentions]))) ?_
          exact fuel_arith_lt hml hb (by simp only [taskCost]; omega)
    | commit h0 =>
      simp only [taskCost] at hb
      simp only [step]
      split
      · intro hc; exact Except.noConfusion hc
      · rename_i hguard
        split
        · intro hc; injection hc with hc2; exact Err.noConfusion hc2
        · rename_i th ps heq
          have hmem := findObj_mem (getCommit_some heq)
          have hps : ps.length + 1 ≤ maxObjLen s := by
            have hol := objLen_le hmem
            simpa [objMentions] using hol
          have hinv1 : Inv HS RS
              ⟨st.refs, st.tags, insert h0 st.commits, st.trees, st.blobs,
               st.edges ++ (ps.map (fun p => (h0, p)) ++ [(h0, th)])⟩ :=
            ⟨hi.1, Finset.insert_subset htk hi.2.1, hi.2.2.1, hi.2.2.2.1, hi.2.2.2.2⟩
          have hml := marksLeft_markCommit hi htk hguard
            (ps.map (fun p => (h0, p)) ++ [(h0, th)])
          have hthHS : th ∈ HS := hHS (mentioned_of_obj hmem th (by simp [objMentions]))
          split
          · rename_i e heq3
            intro hc; injection hc with hc2; subst hc2
            exact ih _ _ hinv1 (by exact hthHS)
              (fuel_arith_lt hml hb (by simp only [taskCost]; omega)) heq3
          · rename_i st3 heq3
            have hinv3 := step_inv s HS RS hHS hRS fuel _ _ _ hinv1 (by exact hthHS) heq3
            have hm3 := @marksLeft_mono HS RS _ _ (step_mono s fuel _ _ _ heq3)
            refine ih _ _ hinv3
              (by exact fun p hp => hHS (mentioned_of_obj hmem p
                (by simp [objMentions, hp]))) ?_
            refine fuel_arith_lt (le_trans (Nat.add_le_add_right hm3 1) hml) hb ?_
            simp only [taskCost]
            omega
    | tree h0 =>
      simp only [taskCost] at hb
      simp only [step]
      split
      · intro hc; exact Except.noConfusion hc
      · rename_i hguard
        split
        · intro hc; injection hc with hc2; exact Err.noConfusion hc2
        · rename_i es heq
          have hmem := findObj_mem (getTree_some heq)
          have hes : es.length ≤ maxObjLen s := by
            have hol := objLen_le hmem
            simpa [objMentions] using hol
          have hinv1 : Inv HS RS
              ⟨st.refs, st.tags, st.commits, insert h0 st.trees, st.blobs, st.edges⟩ :=
            ⟨hi.1, hi.2.1, Finset.insert_subset htk hi.2.2.1, hi.2.2.2.1, hi.2.2.2.2⟩
          have hml := marksLeft_markTree hi htk hguard
          refine ih _ _ hinv1
            (by exact fun e he => hHS (mentioned_of_obj hmem e.hash
              (by simp only [objMentions, List.mem_cons, List.mem_map]
                  exact Or.inr ⟨e, he, rfl⟩))) ?_
          refine fuel_arith_lt hml hb ?_
          simp only [taskCost]
          omega
    | parents ps =>
      simp only [taskCost] at hb
      cases ps with
      | nil => simp only [step]; intro hc; exact Except.noConfusion hc
      | cons p rest =>
        simp only [step]
        split
        · rename_i e heq1
          intro hc; injection hc with hc2; subst hc2
          exact ih _ _ hi (by exact htk p (List.mem_cons_self _ _))
            (fuel_arith_le (le_refl _) hb
              (by simp only [taskCost, List.length_cons]; omega)) heq1
        · rename_i st1 heq1
          have hinv1 := step_inv s HS RS hHS hRS fuel _ _ _ hi
            (by exact htk p (List.mem_cons_self _ _)) heq1
          have hm1 := @marksLeft_mono HS RS _ _ (step_mono s fuel _ _ _ heq1)
          refine ih _ _ hinv1
            (by exact fun q hq => htk q (List.mem_cons_of_mem _ hq)) ?_
          exact fuel_arith_le hm1 hb (by simp only [taskCost, List.length_cons]; omega)
    | entries h0 es =>
      simp only [taskCost] at hb
      cases es with
      | nil => simp only [step]; intro hc; exact Except.noConfusion hc
      | cons e rest =>
        obtain ⟨m, nm, eh⟩ := e
        have hhd : eh ∈ HS := htk ⟨m, nm, eh⟩ (List.mem_cons_self _ _)
        have htl : ∀ e2 ∈ rest, TreeEntry.hash e2 ∈ HS :=
          fun e2 he2 => htk e2 (List.mem_cons_of_mem _ he2)
        cases m
        case empty =>
          simp only [step]
          refine ih _ _ hi (by exact htl) ?_
          exact fuel_arith_le (le_refl _) hb
            (by simp only [taskCost, List.length_cons]; omega)
        case dir =>
          simp only [step]
          split
          · rename_i e2 heq1
            intro hc; injection hc with hc2; subst hc2
            refine absurd heq1 (ih _ _ ?_ (by exact hhd) ?_)
            · exact hi
            · refine fuel_arith_le (marksLeft_mono (subsumes_edges st _)) hb ?_
              simp only [taskCost, List.length_cons]
              omega
          · rename_i st1 heq1
            have hinv1 := step_inv s HS RS hHS hRS fuel _ _ _ (by exact hi)
              (by exact hhd) heq1
            have hm1 := @marksLeft_mono HS RS _ _ (step_mono s fuel _ _ _ heq1)
            refine ih _ _ hinv1 (by exact htl) ?_
            refine fuel_arith_le ?_ hb
              (by simp only [taskCost, List.length_cons]; omega)
            exact le_trans hm1 (marksLeft_mono (subsumes_edges st _))
        case submodule =>
          simp only [step]
          split
          · rename_i e2 heq1
            intro hc; injection hc with hc2; subst hc2
            refine absurd heq1 (ih _ _ ?_ (by exact hhd) ?_)
            · exact hi
            · refine fuel_arith_le (marksLeft_mono (subsumes_edges st _)) hb ?_
              simp only [taskCost, List.length_cons]
              omega
          · rename_i st1 heq1
            have hinv1 := step_inv s HS RS hHS hRS fuel _ _ _ (by exact hi)
              (by exact hhd) heq1
            have hm1 := @marksLeft_mono HS RS _ _ (step_mono s fuel _ _ _ heq1)
            refine ih _ _ hinv1 (by exact htl) ?_
            refine fuel_arith_le ?_ hb
              (by simp only [taskCost, List.length_cons]; omega)
            exact le_trans hm1 (marksLeft_mono (subsumes_edges st _))
        case regular =>
          simp only [step]
          refine ih _ _ (by exact hi) (by exact htl) ?_
          refine fuel_arith_le (marksLeft_mono (subsumes_fileMark st h0 eh)) hb
            (by simp only [taskCost, List.length_cons]; omega)
        case deprecated =>
          simp only [step]
          refine ih _ _ (by exact hi) (by exact htl) ?_
          refine fuel_arith_le (marksLeft_mono (subsumes_fileMark st h0 eh)) hb
            (by simp only [taskCost, List.length_cons]; omega)
        case executable =>
          simp only [step]
          refine ih _ _ (by exact hi) (by exact htl) ?_
          refine fuel_arith_le (marksLeft_mono (subsumes_fileMark st h0 eh)) hb
            (by simp only [taskCost, List.length_cons]; omega)
        case symlink =>
          simp only [step]
          refine ih _ _ (by exact hi) (by exact htl) ?_
          refine fuel_arith_le (marksLeft_mono (subsumes_fileMark st h0 eh)) hb
            (by simp only [taskCost, List.length_cons]; omega)

/-! ### Lemmas about the top-level loops -/

theorem lookup_isSome_append {l1 l2 : List (String × Reference)} {a : String}
    (h : (l2.lookup a).isSome = true) : ((l1 ++ l2).lookup a).isSome = true := by
  induction l1 with
  | nil => exact h
  | cons p rest ih =>
    obtain ⟨k, v⟩ := p
    by_cases hk : a = k
    · subst hk; simp [List.lookup]
    · have hbeq : (a == k) = false := beq_eq_false_iff_ne.mpr hk
      simpa [List.lookup, hbeq] using ih

theorem lookup_isSome_suffix {l l' : List (String × Reference)} {a : String}
    (hs : l <:+ l') (h : (l.lookup a).isSome = true) : (l'.lookup a).isSome = true := by
  obtain ⟨pre, rfl⟩ := hs
  exact lookup_isSome_append h

/-- Facts established by a successful rooted walk: kind soundness,
growth, closure preservation, and membership of every root. -/
theorem walkRoots_facts (s : Store) (fuel : Nat) :
    ∀ (rs : List Hash) (st st' : WalkState), Kind3 s st →
      walkRoots s fuel st rs = .ok st' →
      Kind3 s st' ∧ Subsumes st st' ∧ (∀ P, ClosedE s st P → ClosedE s st' P) ∧
      ∀ r ∈ rs, r ∈ st'.union := by
  intro rs
  induction rs with
  | nil =>
    intro st st' hk h
    simp only [walkRoots, Except.ok.injEq] at h
    subst h
    exact ⟨hk, Subsumes.refl st, fun _ hc => hc, fun r hr => absurd hr (List.not_mem_nil r)⟩
  | cons r rest ih =>
    intro st st' hk h
    simp only [walkRoots] at h
    split at h
    · exact Except.noConfusion h
    · rename_i st1 heq1
      have hk1 := step_kind3 s fuel _ _ _ hk heq1
      have hm1 := step_mono s fuel _ _ _ heq1
      have hcp1 := step_closed s fuel _ _ _ hk heq1
      obtain ⟨hk', hm', hcl', hmem'⟩ := ih _ _ hk1 h
      refine ⟨hk', hm1.trans hm', fun P hc => hcl' P (hcp1.1 P hc), ?_⟩
      intro q hq
      rcases List.mem_cons.mp hq with rfl | hq
      · exact union_mono hm' hcp1.2
      · exact hmem' q hq

/-- Blob-kind soundness along a rooted walk over a mode-consistent store. -/
theorem walkRoots_blobs (s : Store) (hcons : FileModeConsistent s) (fuel : Nat) :
    ∀ (rs : List Hash) (st st' : WalkState),
      (∀ x ∈ st.blobs, s.findObj x = none ∨ s.findObj x = some Obj.blob) →
      walkRoots s fuel st rs = .ok st' →
      ∀ x ∈ st'.blobs, s.findObj x = none ∨ s.findObj x = some Obj.blob := by
  intro rs
  induction rs with
  | nil =>
    intro st st' hb h
    simp only [walkRoots, Except.ok.injEq] at h
    subst h
    exact hb
  | cons r rest ih =>
    intro st st' hb h
    simp only [walkRoots] at h
    split at h
    · exact Except.noConfusion h
    · rename_i st1 heq1
      exact ih _ _ (step_blobs s hcons fuel _ _ _ hb (by exact trivial) heq1) h

/-- Reach soundness along a rooted walk. -/
theorem walkRoots_reach (s : Store) (roots : List Hash) (fuel : Nat) :
    ∀ (rs : List Hash) (st st' : WalkState),
      (∀ r ∈ rs, Reach s roots r) → (∀ x ∈ st.union, Reach s roots x) →
      walkRoots s fuel st rs = .ok st' → ∀ x ∈ st'.union, Reach s roots x := by
  intro rs
  induction rs with
  | nil =>
    intro st st' _ hr h
    simp only [walkRoots, Except.ok.injEq] at h
    subst h
    exact hr
  | cons r rest ih =>
    intro st st' hrs hr h
    simp only [walkRoots] at h
    split at h
    · exact Except.noConfusion h
    · rename_i st1 heq1
      have hr1 := step_reach s roots fuel _ _ _
        (by exact hrs r (List.mem_cons_self _ _)) hr heq1
      exact ih _ _ (fun q hq => hrs q (List.mem_cons_of_mem _ hq)) hr1 h

/-- Facts established by the exhaustive object loop: kind soundness,
growth, closure preservation, and classification of every listed object. -/
theorem walkObjs_facts (s : Store) (fuel : Nat) :
    ∀ (l : List (Hash × Obj)) (st st' : WalkState), Kind3 s st →
      walkObjs s fuel st l = .ok st' →
      Kind3 s st' ∧ Subsumes st st' ∧ (∀ P, ClosedE s st P → ClosedE s st' P) ∧
      ∀ p ∈ l, p.1 ∈ st'.union := by
  intro l
  induction l with
  | nil =>
    intro st st' hk h
    simp only [walkObjs, Except.ok.injEq] at h
    subst h
    exact ⟨hk, Subsumes.refl st, fun _ hc => hc, fun p hp => absurd hp (List.not_mem_nil p)⟩
  | cons p rest ih =>
    intro st st' hk h
    simp only [walkObjs] at h
    split at h
    · exact Except.noConfusion h
    · rename_i st1 heq1
      have hk1 := step_kind3 s fuel _ _ _ hk heq1
      have hm1 := step_mono s fuel _ _ _ heq1
      have hcp1 := step_closed s fuel _ _ _ hk heq1
      obtain ⟨hk', hm', hcl', hmem'⟩ := ih _ _ hk1 h
      refine ⟨hk', hm1.trans hm', fun P hc => hcl' P (hcp1.1 P hc), ?_⟩
      intro q hq
      rcases List.mem_cons.mp hq with rfl | hq
      · exact union_mono hm' hcp1.2
      · exact hmem' q hq

/-- Facts established by the exhaustive reference loop: every listed
reference name ends up in the processed-references map. -/
theorem walkRefList_facts (s : Store) (fuel : Nat) :
    ∀ (l : List Reference) (st st' : WalkState), Kind3 s st →
      walkRefList s fuel st l = .ok st' →
      Kind3 s st' ∧ Subsumes st st' ∧ (∀ P, ClosedE s st P → ClosedE s st' P) ∧
      ∀ r ∈ l, (st'.refs.lookup r.name).isSome = true := by
  intro l
  induction l with
  | nil =>
    intro st st' hk h
    simp only [walkRefList, Except.ok.injEq] at h
    subst h
    exact ⟨hk, Subsumes.refl st, fun _ hc => hc, fun r hr => absurd hr (List.not_mem_nil r)⟩
  | cons r rest ih =>
    intro st st' hk h
    simp only [walkRefList] at h
    split at h
    · exact Except.noConfusion h
    · rename_i st1 heq1
      have hk1 := step_kind3 s fuel _ _ _ hk heq1
      have hm1 := step_mono s fuel _ _ _ heq1
      have hcp1 := step_closed s fuel _ _ _ hk heq1
      obtain ⟨hk', hm', hcl', hmem'⟩ := ih _ _ hk1 h
      refine ⟨hk', hm1.trans hm', fun P hc => hcl' P (hcp1.1 P hc), ?_⟩
      intro q hq
      rcases List.mem_cons.mp hq with rfl | hq
      · exact lookup_isSome_suffix hm'.2.2.2.2.1 hcp1.2
      · exact hmem' q hq

/-! ### Fuel sufficiency for the whole program traversal -/

theorem marksLeft_le (HS : Finset Hash) (RS : Finset String) (st : WalkState) :
    marksLeft HS RS st ≤ 3 * HS.card + RS.card :=
  Nat.sub_le _ _

theorem fuel_transfer {A T m c c2 fuel : Nat} (hm : m ≤ T) (hc : c2 ≤ c)
    (hb : A * T + c ≤ fuel) : A * m + c2 ≤ fuel :=
  le_trans (Nat.add_le_add (Nat.mul_le_mul_left A hm) hc) hb

theorem handleArg_mono (s : Store) (fuel : Nat) (st : WalkState) (a : Arg)
    (st' : WalkState) (h : handleArg s fuel st a = .ok st') : Subsumes st st' := by
  unfold handleArg at h
  split at h
  · exact step_mono s fuel _ _ _ h
  · split at h
    · exact step_mono s fuel _ _ _ h
    · exact Except.noConfusion h

theorem handleArg_inv (s : Store) (HS : Finset Hash) (RS : Finset String)
    (hHS : mentionedHashes s ⊆ HS) (hRS : ∀ r ∈ s.references, r.name ∈ RS)
    (fuel : Nat) (st : WalkState) (a : Arg) (st' : WalkState)
    (hi : Inv HS RS st) (ha : a.asHash ∈ HS) (h : handleArg s fuel st a = .ok st') :
    Inv HS RS st' := by
  unfold handleArg at h
  split at h
  · rename_i ref heq
    exact step_inv s HS RS hHS hRS fuel _ _ _ hi (by exact findRef_mem heq) h
  · split at h
    · exact step_inv s HS RS hHS hRS fuel _ _ _ hi (by exact ha) h
    · exact Except.noConfusion h

theorem handleArg_fuel (s : Store) (HS : Finset Hash) (RS : Finset String)
    (hHS : mentionedHashes s ⊆ HS) (hRS : ∀ r ∈ s.references, r.name ∈ RS)
    (fuel : Nat) (st : WalkState) (a : Arg)
    (hi : Inv HS RS st) (ha : a.asHash ∈ HS)
    (hb : stepAmp s * marksLeft HS RS st + 6 ≤ fuel) :
    handleArg s fuel st a ≠ .error .outOfFuel := by
  unfold handleArg
  split
  · rename_i ref heq
    exact step_fuel s HS RS hHS hRS fuel _ _ hi (by exact findRef_mem heq) (by exact hb)
  · split
    · refine step_fuel s HS RS hHS hRS fuel _ _ hi (by exact ha) ?_
      calc stepAmp s * marksLeft HS RS st + taskCost (Task.hash a.asHash)
          = stepAmp s * marksLeft HS RS st + 5 := rfl
        _ ≤ stepAmp s * marksLeft HS RS st + 6 := Nat.add_le_add_left (by omega) _
        _ ≤ fuel := hb
    · intro hc; injection hc with hc2; exact Err.noConfusion hc2

theorem walkArgs_inv (s : Store) (HS : Finset Hash) (RS : Finset String)
    (hHS : mentionedHashes s ⊆ HS) (hRS : ∀ r ∈ s.references, r.name ∈ RS) (fuel : Nat) :
    ∀ (l : List Arg) (st st' : WalkState), Inv HS RS st → (∀ a ∈ l, a.asHash ∈ HS) →
      walkArgs s fuel st l = .ok st' → Inv HS RS st' := by
  intro l
  induction l with
  | nil =>
    intro st st' hi _ h
    simp only [walkArgs, Except.ok.injEq] at h
    subst h; exact hi
  | cons a rest ih =>
    intro st st' hi hl h
    simp only [walkArgs] at h
    split at h
    · exact Except.noConfusion h
    · rename_i st1 heq1
      exact ih _ _ (handleArg_inv s HS RS hHS hRS fuel _ _ _ hi
          (hl a (List.mem_cons_self _ _)) heq1)
        (fun q hq => hl q (List.mem_cons_of_mem _ hq)) h

theorem walkArgs_fuel (s : Store) (HS : Finset Hash) (RS : Finset String)
    (hHS : mentionedHashes s ⊆ HS) (hRS : ∀ r ∈ s.references, r.name ∈ RS) (fuel : Nat)
    (hb : stepAmp s * (3 * HS.card + RS.card) + 6 ≤ fuel) :
    ∀ (l : List Arg) (st : WalkState), Inv HS RS st → (∀ a ∈ l, a.asHash ∈ HS) →
      walkArgs s fuel st l ≠ .error .outOfFuel := by
  intro l
  induction l with
  | nil =>
    intro st _ _
    simp only [walkArgs]
    intro hc; exact Except.noConfusion hc
  | cons a rest ih =>
    intro st hi hl
    simp only [walkArgs]
    split
    · rename_i e heq1
      intro hc; injection hc with hc2; subst hc2
      exact handleArg_fuel s HS RS hHS hRS fuel _ _ hi (hl a (List.mem_cons_self _ _))
        (fuel_transfer (marksLeft_le HS RS st) (le_refl 6) hb) heq1
    · rename_i st1 heq1
      exact ih _ (handleArg_inv s HS RS hHS hRS fuel _ _ _ hi
          (hl a (List.mem_cons_self _ _)) heq1)
        (fun q hq => hl q (List.mem_cons_of_mem _ hq))

theorem walkObjs_inv (s : Store) (HS : Finset Hash) (RS : Finset String)
    (hHS : mentionedHashes s ⊆ HS) (hRS : ∀ r ∈ s.references, r.name ∈ RS) (fuel : Nat) :
    ∀ (l : List (Hash × Obj)) (st st' : WalkState), Inv HS RS st →
      (∀ p ∈ l, p.1 ∈ HS) → walkObjs s fuel st l = .ok st' → Inv HS RS st' := by
  intro l
  induction l with
  | nil =>
    intro st st' hi _ h
    simp only [walkObjs, Except.ok.injEq] at h
    subst h; exact hi
  | cons p rest ih =>
    intro st st' hi hl h
    simp only [walkObjs] at h
    split at h
    · exact Except.noConfusion h
    · rename_i st1 heq1
      exact ih _ _ (step_inv s HS RS hHS hRS fuel _ _ _ hi
          (by exact hl p (List.mem_cons_self _ _)) heq1)
        (fun q hq => hl q (List.mem_cons_of_mem _ hq)) h

theorem walkObjs_fuel (s : Store) (HS : Finset Hash) (RS : Finset String)
    (hHS : mentionedHashes s ⊆ HS) (hRS : ∀ r ∈ s.references, r.name ∈ RS) (fuel : Nat)
    (hb : stepAmp s * (3 * HS.card + RS.card) + 6 ≤ fuel) :
    ∀ (l : List (Hash × Obj)) (st : WalkState), Inv HS RS st → (∀ p ∈ l, p.1 ∈ HS) →
      walkObjs s fuel st l ≠ .error .outOfFuel := by
  intro l
  induction l with
  | nil =>
    intro st _ _
    simp only [walkObjs]
    intro hc; exact Except.noConfusion hc
  | cons p rest ih =>
    intro st hi hl
    simp only [walkObjs]
    split
    · rename_i e heq1
      intro hc; injection hc with hc2; subst hc2
      refine absurd heq1 (step_fuel s HS RS hHS hRS fuel _ _ hi
        (by exact hl p (List.mem_cons_self _ _)) ?_)
      exact fuel_transfer (marksLeft_le HS RS st) (by simp only [taskCost]; omega) hb
    · rename_i st1 heq1
      exact ih _ (step_inv s HS RS hHS hRS fuel _ _ _ hi
          (by exact hl p (List.mem_cons_self _ _)) heq1)
        (fun q hq => hl q (List.mem_cons_of_mem _ hq))

theorem walkRefList_inv (s : Store) (HS : Finset Hash) (RS : Finset String)
    (hHS : mentionedHashes s ⊆ HS) (hRS : ∀ r ∈ s.references, r.name ∈ RS) (fuel : Nat) :
    ∀ (l : List Reference) (st st' : WalkState), Inv HS RS st →
      (∀ r ∈ l, r ∈ s.references) → walkRefList s fuel st l = .ok st' → Inv HS RS st' := by
  intro l
  induction l with
  | nil =>
    intro st st' hi _ h
    simp only [walkRefList, Except.ok.injEq] at h
    subst h; exact hi
  | cons r rest ih =>
    intro st st' hi hl h
    simp only [walkRefList] at h
    split at h
    · exact Except.noConfusion h
    · rename_i st1 heq1
      exact ih _ _ (step_inv s HS RS hHS hRS fuel _ _ _ hi
          (by exact hl r (List.mem_cons_self _ _)) heq1)
        (fun q hq => hl q (List.mem_cons_of_mem _ hq)) h

theorem walkRefList_fuel (s : Store) (HS : Finset Hash) (RS : Finset String)
    (hHS : mentionedHashes s ⊆ HS) (hRS : ∀ r ∈ s.references, r.name ∈ RS) (fuel : Nat)
    (hb : stepAmp s * (3 * HS.card + RS.card) + 6 ≤ fuel) :
    ∀ (l : List Reference) (st : WalkState), Inv HS RS st → (∀ r ∈ l, r ∈ s.references) →
      walkRefList s fuel st l ≠ .error .outOfFuel := by
  intro l
  induction l with
  | nil =>
    intro st _ _
    simp only [walkRefList]
    intro hc; exact Except.noConfusion hc
  | cons r rest ih =>
    intro st hi hl
    simp only [walkRefList]
    split
    · rename_i e heq1
      intro hc; injection hc with hc2; subst hc2
      refine absurd heq1 (step_fuel s HS RS hHS hRS fuel _ _ hi
        (by exact hl r (List.mem_cons_self _ _)) ?_)
      exact fuel_transfer (marksLeft_le HS RS st) (by simp only [taskCost]; omega) hb
    · rename_i st1 heq1
      exact ih _ (step_inv s HS RS hHS hRS fuel _ _ _ hi
          (by exact hl r (List.mem_cons_self _ _)) heq1)
        (fun q hq => hl q (List.mem_cons_of_mem _ hq))

theorem inv_emptyState (HS : Finset Hash) (RS : Finset String) :
    Inv HS RS emptyState := by
  refine ⟨?_, ?_, ?_, ?_, ?_⟩ <;> simp [emptyState]

theorem refName_mem_refNameSet {s : Store} {r : Reference} (hr : r ∈ s.references) :
    r.name ∈ refNameSet s := by
  unfold refNameSet
  rw [List.mem_toFinset]
  exact List.mem_map.mpr ⟨r, hr, rfl⟩

theorem argHash_mem {args : List Arg} {a : Arg} (ha : a ∈ args) {s : Store} :
    a.asHash ∈ mentionedHashes s ∪ (args.map (fun a => a.asHash)).toFinset := by
  refine Finset.mem_union_right _ ?_
  rw [List.mem_toFinset]
  exact List.mem_map.mpr ⟨a, ha, rfl⟩

theorem objKey_mem {s : Store} {p : Hash × Obj} (hp : p ∈ s.objects) :
    p.1 ∈ mentionedHashes s := by
  obtain ⟨h, o⟩ := p
  exact mentioned_of_obj hp h (List.mem_cons_self _ _)

/-- The complete program traversal never exhausts fuel at or above the
explicit bound computed from the store and arguments. -/
theorem traverse_fuel (s : Store) (args : List Arg) (fuel : Nat)
    (hb : traverseBound s args ≤ fuel) : traverse s fuel args ≠ .error .outOfFuel := by
  unfold traverseBound at hb
  have hHS : mentionedHashes s ⊆
      mentionedHashes s ∪ (args.map (fun a => a.asHash)).toFinset :=
    Finset.subset_union_left
  have hRS : ∀ r ∈ s.references, r.name ∈ refNameSet s := fun r hr =>
    refName_mem_refNameSet hr
  have hb6 : stepAmp s *
      (3 * (mentionedHashes s ∪ (args.map (fun a => a.asHash)).toFinset).card
        + (refNameSet s).card) + 6 ≤ fuel := by omega
  unfold traverse
  split
  · rename_i hempty
    split
    · rename_i e heq1
      intro hc; injection hc with hc2; subst hc2
      exact walkObjs_fuel s _ _ hHS hRS fuel hb6 s.objects emptyState
        (inv_emptyState _ _) (fun p hp => hHS (objKey_mem hp)) heq1
    · rename_i st1 heq1
      exact walkRefList_fuel s _ _ hHS hRS fuel hb6 s.references st1
        (walkObjs_inv s _ _ hHS hRS fuel s.objects emptyState st1 (inv_emptyState _ _)
          (fun p hp => hHS (objKey_mem hp)) heq1)
        (fun r hr => hr)
  · exact walkArgs_fuel s _ _ hHS hRS fuel hb6 args emptyState (inv_emptyState _ _)
      (fun a ha => argHash_mem ha)

/-- On success the gated sets are bounded by the mentioned universe:
three kind-sets worth of hashes plus one entry per reference name. -/
theorem traverse_sizes (s : Store) (args : List Arg) (fuel : Nat) (st' : WalkState)
    (h : traverse s fuel args = .ok st') :
    st'.tags.card + st'.commits.card + st'.trees.card + st'.refs.length
      ≤ 3 * (mentionedHashes s ∪ (args.map (fun a => a.asHash)).toFinset).card
        + (refNameSet s).card := by
  have hHS : mentionedHashes s ⊆
      mentionedHashes s ∪ (args.map (fun a => a.asHash)).toFinset :=
    Finset.subset_union_left
  have hRS : ∀ r ∈ s.references, r.name ∈ refNameSet s := fun r hr =>
    refName_mem_refNameSet hr
  have hinv : Inv (mentionedHashes s ∪ (args.map (fun a => a.asHash)).toFinset)
      (refNameSet s) st' := by
    unfold traverse at h
    split at h
    · split at h
      · exact Except.noConfusion h
      · rename_i st1 heq1
        exact walkRefList_inv s _ _ hHS hRS fuel s.references st1 st'
          (walkObjs_inv s _ _ hHS hRS fuel s.objects emptyState st1 (inv_emptyState _ _)
            (fun p hp => hHS (objKey_mem hp)) heq1)
          (fun r hr => hr) h
    · exact walkArgs_inv s _ _ hHS hRS fuel args emptyState st' (inv_emptyState _ _)
        (fun a ha => argHash_mem ha) h
  have h1 := Finset.card_le_card hinv.1
  have h2 := Finset.card_le_card hinv.2.1
  have h3 := Finset.card_le_card hinv.2.2.1
  have h4 := refs_length_le hinv.2.2.2.1 hinv.2.2.2.2
  omega

/-! ### Guard behaviour, empty state, and render membership -/

theorem walk_guard (s : Store) (fuel : Nat) (st : WalkState) (h : Hash)
    (hm : h ∈ st.union) : walk s (fuel + 1) st h = .ok st := by
  unfold walk
  simp only [step]
  split
  · rfl
  · rename_i hneg; exact absurd (mem_union_iff.mp hm) hneg

theorem walkTag_guard (s : Store) (fuel : Nat) (st : WalkState) (h : Hash)
    (hm : h ∈ st.tags) : walkTag s (fuel + 1) st h = .ok st := by
  unfold walkTag
  simp only [step]
  split
  · rfl
  · rename_i hneg; exact absurd hm hneg

theorem walkCommit_guard (s : Store) (fuel : Nat) (st : WalkState) (h : Hash)
    (hm : h ∈ st.commits) : walkCommit s (fuel + 1) st h = .ok st := by
  unfold walkCommit
  simp only [step]
  split
  · rfl
  · rename_i hneg; exact absurd hm hneg

theorem walkTree_guard (s : Store) (fuel : Nat) (st : WalkState) (h : Hash)
    (hm : h ∈ st.trees) : walkTree s (fuel + 1) st h = .ok st := by
  unfold walkTree
  simp only [step]
  split
  · rfl
  · rename_i hneg; exact absurd hm hneg

theorem walkRef_guard (s : Store) (fuel : Nat) (st : WalkState) (r : Reference)
    (hm : (st.refs.lookup r.name).isSome = true) : walkRef s (fuel + 1) st r = .ok st := by
  unfold walkRef
  simp only [step]
  split
  · rfl
  · rename_i hneg; exact absurd hm hneg

theorem kind3_emptyState (s : Store) : Kind3 s emptyState := by
  refine ⟨?_, ?_, ?_⟩ <;> intro x hx <;> simp [emptyState] at hx

theorem closedE_emptyState (s : Store) (P : Finset Hash) : ClosedE s emptyState P := by
  intro x _
  refine ⟨?_, ?_, ?_⟩ <;> intro hm <;> simp [emptyState] at hm

theorem union_emptyState (x : Hash) : x ∈ emptyState.union → False := by
  intro hx
  rcases mem_union_iff.mp hx with hx | hx | hx | hx <;> simp [emptyState] at hx

theorem getCommit_none_of_findObj {s : Store} {h : Hash} {o : Obj}
    (hfo : s.findObj h = some o) (ho : ∀ t ps, o ≠ Obj.commit t ps) :
    s.getCommit h = none := by
  unfold Store.getCommit
  rw [hfo]
  cases o with
  | commit t ps => exact absurd rfl (ho t ps)
  | tag t => rfl
  | tree es => rfl
  | blob => rfl

theorem getTag_none_of_findObj {s : Store} {h : Hash} {o : Obj}
    (hfo : s.findObj h = some o) (ho : ∀ t, o ≠ Obj.tag t) : s.getTag h = none := by
  unfold Store.getTag
  rw [hfo]
  cases o with
  | tag t => exact absurd rfl (ho t)
  | commit t ps => rfl
  | tree es => rfl
  | blob => rfl

theorem getTree_none_of_findObj {s : Store} {h : Hash} {o : Obj}
    (hfo : s.findObj h = some o) (ho : ∀ es, o ≠ Obj.tree es) : s.getTree h = none := by
  unfold Store.getTree
  rw [hfo]
  cases o with
  | tree es => exact absurd rfl (ho es)
  | tag t => rfl
  | commit t ps => rfl
  | blob => rfl

theorem exists_mem_of_lookup_isSome {l : List (String × Reference)} {a : String}
    (h : (l.lookup a).isSome = true) : ∃ b, (a, b) ∈ l := by
  induction l with
  | nil => simp [List.lookup] at h
  | cons p rest ih =>
    obtain ⟨k, v⟩ := p
    by_cases hk : a = k
    · subst hk; exact ⟨v, List.mem_cons_self _ _⟩
    · have hbeq : (a == k) = false := beq_eq_false_iff_ne.mpr hk
      simp only [List.lookup, hbeq] at h
      obtain ⟨b, hb⟩ := ih h
      exact ⟨b, List.mem_cons_of_mem _ hb⟩

theorem mem_foldr_refLines {opts : Options} {l : List (String × Reference)}
    {p : String × Reference} (hp : p ∈ l) {x : String} (hx : x ∈ refLines opts p) :
    x ∈ l.foldr (fun p acc => refLines opts p ++ acc) [] := by
  induction l with
  | nil => cases hp
  | cons q rest ih =>
    simp only [List.foldr, List.mem_append]
    rcases List.mem_cons.mp hp with rfl | hp
    · exact Or.inl hx
    · exact Or.inr (ih hp)

theorem mem_render_tagNode {opts : Options} {st : WalkState} {h : Hash}
    (hm : h ∈ st.tags) :
    nodeLine (hashString h) (objAttrs opts "tag" "lightskyblue" [] h) ∈ render opts st := by
  have hfin : h ∈ finList st.tags := by rw [finList, Finset.mem_sort]; exact hm
  have hmem := List.mem_map_of_mem
    (fun h => nodeLine (hashString h) (objAttrs opts "tag" "lightskyblue" [] h)) hfin
  unfold render
  exact List.mem_append_left _ (List.mem_append_left _ (List.mem_append_left _ (List.mem_append_left _ (List.mem_append_left _ (List.mem_append_left _ (List.mem_append_right _ hmem))))))

theorem mem_render_commitNode {opts : Options} {st : WalkState} {h : Hash}
    (hm : h ∈ st.commits) :
    nodeLine (hashString h)
      (objAttrs opts "commit" "yellowgreen" [("group", "commits")] h) ∈ render opts st := by
  have hfin : h ∈ finList st.commits := by rw [finList, Finset.mem_sort]; exact hm
  have hmem := List.mem_map_of_mem
    (fun h => nodeLine (hashString h)
      (objAttrs opts "commit" "yellowgreen" [("group", "commits")] h)) hfin
  unfold render
  exact List.mem_append_left _ (List.mem_append_left _ (List.mem_append_left _ (List.mem_append_left _ (List.mem_append_left _ (List.mem_append_right _ hmem)))))

theorem mem_render_treeNode {opts : Options} {st : WalkState} {h : Hash}
    (hm : h ∈ st.trees) :
    nodeLine (hashString h) (objAttrs opts "tree" "tomato" [] h) ∈ render opts st := by
  have hfin : h ∈ finList st.trees := by rw [finList, Finset.mem_sort]; exact hm
  have hmem := List.mem_map_of_mem
    (fun h => nodeLine (hashString h) (objAttrs opts "tree" "tomato" [] h)) hfin
  unfold render
  exact List.mem_append_left _ (List.mem_append_left _ (List.mem_append_left _ (List.mem_append_left _ (List.mem_append_right _ hmem))))

theorem mem_render_blobNode {opts : Options} {st : WalkState} {h : Hash}
    (hm : h ∈ st.blobs) :
    nodeLine (hashString h) (objAttrs opts "blob" "gold" [] h) ∈ render opts st := by
  have hfin : h ∈ finList st.blobs := by rw [finList, Finset.mem_sort]; exact hm
  have hmem := List.mem_map_of_mem
    (fun h => nodeLine (hashString h) (objAttrs opts "blob" "gold" [] h)) hfin
  unfold render
  exact List.mem_append_left _ (List.mem_append_left _ (List.mem_append_left _ (List.mem_append_right _ hmem)))

theorem mem_render_refNode {opts : Options} {st : WalkState} {n : String}
    {r : Reference} (hm : (n, r) ∈ st.refs) :
    nodeLine n ([("shape", "box")] ++ (if opts.noColor then [] else [("color", "plum")]))
      ∈ render opts st := by
  have hmem := @mem_foldr_refLines opts st.refs (n, r) hm
    (nodeLine n ([("shape", "box")] ++ (if opts.noColor then [] else [("color", "plum")])))
    (by simp [refLines])
  unfold render
  exact List.mem_append_left _ (List.mem_append_left _ (List.mem_append_right _ hmem))

/-- Every classified hash gets a node statement of its kind in the render. -/
theorem mem_render_of_union {opts : Options} {st : WalkState} {h : Hash}
    (hm : h ∈ st.union) :
    ∃ attrs, nodeLine (hashString h) attrs ∈ render opts st := by
  rcases mem_union_iff.mp hm with hx | hx | hx | hx
  · exact ⟨_, mem_render_tagNode hx⟩
  · exact ⟨_, mem_render_commitNode hx⟩
  · exact ⟨_, mem_render_treeNode hx⟩
  · exact ⟨_, mem_render_blobNode hx⟩

/-! ### Claim theorems -/

/-- C6: walking the single root commit of a store whose commit has an
empty parent list and whose tree has exactly one regular-file entry
produces exactly one commit node, one tree node and one blob node, no
tags, no references, and exactly the edges commit to tree and tree to
blob. -/
theorem C6_scenarioA :
    walkRoots scenarioAStore 20 emptyState [1] =
      .ok ⟨[], ∅, {1}, {2}, {3}, [(1, 2), (2, 3)]⟩ := by
  decide

/-- C3: walking a reference stops immediately when its name was already
processed, so reference walking over a store whose symbolic references
form the cycle A to B to A terminates deterministically (marking each
name once) instead of recursing unboundedly. -/
theorem C3_refCycle_guard :
    (∀ (s : Store) (fuel : Nat) (st : WalkState) (r : Reference),
        (st.refs.lookup r.name).isSome = true → walkRef s (fuel + 1) st r = .ok st) ∧
    walkRef cycleRefStore 10 emptyState ⟨"A", RefTarget.symbolicRef "B"⟩ =
      .ok ⟨[("B", ⟨"B", RefTarget.symbolicRef "A"⟩), ("A", ⟨"A", RefTarget.symbolicRef "B"⟩)],
           ∅, ∅, ∅, ∅, []⟩ :=
  ⟨fun s fuel st r hm => walkRef_guard s fuel st r hm, by decide⟩

/-- Witness for C3 at a concrete already-processed reference. -/
theorem C3_refCycle_guard_witness :
    (((⟨[("A", ⟨"A", RefTarget.symbolicRef "B"⟩)], ∅, ∅, ∅, ∅, []⟩ : WalkState).refs.lookup
        "A").isSome = true) ∧
    walkRef cycleRefStore 5 ⟨[("A", ⟨"A", RefTarget.symbolicRef "B"⟩)], ∅, ∅, ∅, ∅, []⟩
        ⟨"A", RefTarget.symbolicRef "B"⟩ =
      .ok ⟨[("A", ⟨"A", RefTarget.symbolicRef "B"⟩)], ∅, ∅, ∅, ∅, []⟩ :=
  ⟨by decide, C3_refCycle_guard.1 cycleRefStore 4
    ⟨[("A", ⟨"A", RefTarget.symbolicRef "B"⟩)], ∅, ∅, ∅, ∅, []⟩
    ⟨"A", RefTarget.symbolicRef "B"⟩ (by decide)⟩

/-- C5: a store error during traversal makes the program exit with code
1 and emit nothing on the output stream, and graph text is produced only
when the whole traversal succeeds, in which case the output is the
complete nonempty graph description and the exit code is 0. -/
theorem C5_failure_no_output (s : Store) (opts : Options) (fuel : Nat) (args : List Arg) :
    (∀ e, traverse s fuel args = .error e → mainRun s opts fuel args = (1, [])) ∧
    (∀ st, traverse s fuel args = .ok st →
      mainRun s opts fuel args = (0, render opts st) ∧ render opts st ≠ []) := by
  constructor
  · intro e he
    unfold mainRun
    rw [he]
  · intro st hst
    unfold mainRun
    rw [hst]
    refine ⟨rfl, ?_⟩
    unfold render
    intro hc
    have hlen := congrArg List.length hc
    simp at hlen

/-- Witness for C5 at a concrete failing store (absent submodule commit)
and a concrete succeeding store. -/
theorem C5_failure_no_output_witness :
    mainRun submoduleStore ⟨false, false⟩ 20 [⟨"x", 1⟩] = (1, []) ∧
    mainRun scenarioAStore ⟨false, false⟩ 20 [⟨"x", 1⟩] =
      (0, render ⟨false, false⟩ (resultState (traverse scenarioAStore 20 [⟨"x", 1⟩]))) :=
  ⟨(C5_failure_no_output submoduleStore ⟨false, false⟩ 20 [⟨"x", 1⟩]).1
     (Err.commitNotFound 77) (by decide),
   ((C5_failure_no_output scenarioAStore ⟨false, false⟩ 20 [⟨"x", 1⟩]).2
     (resultState (traverse scenarioAStore 20 [⟨"x", 1⟩])) (by decide)).1⟩

/-- C8: root resolution follows the fixed priority order of the source:
an existing reference is walked as a reference; otherwise a hash present
in the store is walked directly; otherwise the argument fails with the
reference-lookup error, and concretely a failing root exits with code 1.
The concrete conjuncts show a reference taking priority over a valid
hash reading (hash 5 stays unvisited), the hash fallback, and the
failure case. -/
theorem C8_root_resolution :
    (∀ (s : Store) (fuel : Nat) (st : WalkState) (a : Arg),
      (∀ ref, s.findRef a.asName = some ref →
        handleArg s fuel st a = walkRef s fuel st ref) ∧
      (s.findRef a.asName = none → s.hasEncodedObject a.asHash = true →
        handleArg s fuel st a = walk s fuel st a.asHash) ∧
      (s.findRef a.asName = none → s.hasEncodedObject a.asHash = false →
        handleArg s fuel st a = .error (.refNotFound a.asName))) ∧
    walkArgs rootStore 20 emptyState [⟨"r1", 5⟩] =
      .ok ⟨[("r1", ⟨"r1", RefTarget.hashRef 1⟩)], ∅, {1}, {2}, ∅, [(1, 2)]⟩ ∧
    walkArgs rootStore 20 emptyState [⟨"nope", 5⟩] = .ok ⟨[], ∅, ∅, ∅, {5}, []⟩ ∧
    walkArgs rootStore 20 emptyState [⟨"nope", 99⟩] = .error (.refNotFound "nope") ∧
    mainRun rootStore ⟨false, false⟩ 20 [⟨"nope", 99⟩] = (1, []) := by
  refine ⟨?_, by decide, by decide, by decide, by decide⟩
  intro s fuel st a
  refine ⟨?_, ?_, ?_⟩
  · intro ref heq
    simp [handleArg, heq]
  · intro h1 h2
    simp [handleArg, h1, h2]
  · intro h1 h2
    simp [handleArg, h1, h2]

/-- Witness for C8 at concrete arguments exercising each hypothesis. -/
theorem C8_root_resolution_witness :
    (rootStore.findRef "r1" = some ⟨"r1", RefTarget.hashRef 1⟩ ∧
      handleArg rootStore 20 emptyState ⟨"r1", 5⟩ =
        walkRef rootStore 20 emptyState ⟨"r1", RefTarget.hashRef 1⟩) ∧
    (rootStore.findRef "nope" = none ∧ rootStore.hasEncodedObject 5 = true ∧
      handleArg rootStore 20 emptyState ⟨"nope", 5⟩ = walk rootStore 20 emptyState 5) ∧
    (rootStore.findRef "nope" = none ∧ rootStore.hasEncodedObject 99 = false ∧
      handleArg rootStore 20 emptyState ⟨"nope", 99⟩ = .error (.refNotFound "nope")) :=
  ⟨⟨by decide, (C8_root_resolution.1 rootStore 20 emptyState ⟨"r1", 5⟩).1
      ⟨"r1", RefTarget.hashRef 1⟩ (by decide)⟩,
   ⟨by decide, by decide, (C8_root_resolution.1 rootStore 20 emptyState ⟨"nope", 5⟩).2.1
      (by decide) (by decide)⟩,
   ⟨by decide, by decide, (C8_root_resolution.1 rootStore 20 emptyState ⟨"nope", 99⟩).2.2
      (by decide) (by decide)⟩⟩

/-- C2: for every finite store (the DAG hypothesis is not even needed —
the visited-set gating alone suffices) the traversal terminates: fuel at
the explicit bound computed from the number of distinct mentioned hashes
and reference names is never exhausted, and on success the gated marks
are bounded by three kind-sets worth of mentioned hashes plus one entry
per distinct reference name.  The diamond-ancestry witness below
completes without exhausting fuel. -/
theorem C2_termination (s : Store) (args : List Arg) :
    (∀ fuel, traverseBound s args ≤ fuel → traverse s fuel args ≠ .error .outOfFuel) ∧
    (∀ fuel st', traverse s fuel args = .ok st' →
      st'.tags.card + st'.commits.card + st'.trees.card + st'.refs.length
        ≤ 3 * (mentionedHashes s ∪ (args.map (fun a => a.asHash)).toFinset).card
          + (refNameSet s).card) :=
  ⟨fun fuel hb => traverse_fuel s args fuel hb,
   fun fuel st' h => traverse_sizes s args fuel st' h⟩

/-- Witness for C2 on the diamond-ancestry store: two paths converge on
commit 13 and the traversal completes without infinite recursion. -/
theorem C2_termination_witness :
    (traverseBound diamondStore [⟨"x", 10⟩] ≤ 1000 ∧
      traverse diamondStore 1000 [⟨"x", 10⟩] ≠ .error .outOfFuel) ∧
    isOkE (traverse diamondStore 1000 [⟨"x", 10⟩]) = true ∧
    13 ∈ (resultState (traverse diamondStore 1000 [⟨"x", 10⟩])).commits :=
  ⟨⟨by decide, (C2_termination diamondStore [⟨"x", 10⟩]).1 1000 (by decide)⟩,
   by decide, by decide⟩

/-- C7: exhaustive mode (no roots) classifies every object of the store
and processes every reference, regardless of reachability, and the
render emits a node statement for each of them. -/
theorem C7_exhaustive (s : Store) (opts : Options) (fuel : Nat) (st' : WalkState)
    (h : traverse s fuel [] = .ok st') :
    (∀ p ∈ s.objects, p.1 ∈ st'.union) ∧
    (∀ r ∈ s.references, (st'.refs.lookup r.name).isSome = true) ∧
    (∀ p ∈ s.objects, ∃ attrs, nodeLine (hashString p.1) attrs ∈ render opts st') ∧
    (∀ r ∈ s.references,
      nodeLine r.name
        ([("shape", "box")] ++ (if opts.noColor then [] else [("color", "plum")]))
        ∈ render opts st') := by
  unfold traverse at h
  simp only [List.isEmpty_nil, if_true] at h
  split at h
  · exact Except.noConfusion h
  · rename_i st1 heq1
    obtain ⟨hk1, hsub1, _, hmemo⟩ := walkObjs_facts s fuel s.objects emptyState st1
      (kind3_emptyState s) heq1
    obtain ⟨_, hsub2, _, hmemr⟩ := walkRefList_facts s fuel s.references st1 st' hk1 h
    refine ⟨?_, hmemr, ?_, ?_⟩
    · intro p hp
      exact union_mono hsub2 (hmemo p hp)
    · intro p hp
      exact mem_render_of_union (union_mono hsub2 (hmemo p hp))
    · intro r hr
      obtain ⟨b, hb⟩ := exists_mem_of_lookup_isSome (hmemr r hr)
      exact mem_render_refNode hb

/-- Witness for C7 on the inventory store, which holds an orphan blob
(hash 6) that no reference or object points to. -/
theorem C7_exhaustive_witness :
    traverse inventoryStore 100 [] = .ok inventoryFinal ∧
    (∀ p ∈ inventoryStore.objects, p.1 ∈ inventoryFinal.union) ∧
    (∀ r ∈ inventoryStore.references, (inventoryFinal.refs.lookup r.name).isSome = true) :=
  ⟨by decide,
   (C7_exhaustive inventoryStore ⟨false, false⟩ 100 inventoryFinal (by decide)).1,
   (C7_exhaustive inventoryStore ⟨false, false⟩ 100 inventoryFinal (by decide)).2.1⟩

/-- The entry loop over file-mode entries always succeeds, marking every
entry hash as a blob and recording every edge, without a store lookup. -/
theorem entries_files_ok (s : Store) :
    ∀ (es : List TreeEntry) (fuel : Nat) (st : WalkState) (h0 : Hash),
      (∀ e ∈ es, e.mode.isFile = true) → es.length + 1 ≤ fuel →
      ∃ st', step s fuel st (.entries h0 es) = .ok st' ∧ Subsumes st st' ∧
        ∀ e ∈ es, e.hash ∈ st'.blobs ∧ (h0, e.hash) ∈ st'.edges := by
  intro es
  induction es with
  | nil =>
    intro fuel st h0 _ hf
    cases fuel with
    | zero => omega
    | succ f =>
      exact ⟨st, rfl, Subsumes.refl st, fun e he => absurd he (List.not_mem_nil e)⟩
  | cons e rest ih =>
    intro fuel st h0 hfile hf
    cases fuel with
    | zero => simp at hf
    | succ f =>
      obtain ⟨m, nm, eh⟩ := e
      have hm : FileMode.isFile m = true := hfile _ (List.mem_cons_self _ _)
      have hrest : ∀ e2 ∈ rest, e2.mode.isFile = true :=
        fun e2 he2 => hfile e2 (List.mem_cons_of_mem _ he2)
      have hlen : rest.length + 1 ≤ f := by simp at hf; omega
      cases m
      case empty => simp [FileMode.isFile] at hm
      case dir => simp [FileMode.isFile] at hm
      case submodule => simp [FileMode.isFile] at hm
      all_goals {
        obtain ⟨st', heq, hsub, hmem⟩ := ih f
          ⟨st.refs, st.tags, st.commits, st.trees, insert eh st.blobs,
           st.edges ++ [(h0, eh)]⟩ h0 hrest hlen
        refine ⟨st', ?_, (subsumes_fileMark st h0 eh).trans hsub, ?_⟩
        · simp only [step]
          exact heq
        · intro e2 he2
          rcases List.mem_cons.mp he2 with rfl | he2
          · exact ⟨hsub.2.2.2.1 (Finset.mem_insert_self _ _),
              hsub.2.2.2.2.2 _ (by simp)⟩
          · exact hmem e2 he2
      }

/-- The entry loop aborts with the commit-lookup error when it reaches a
submodule entry whose hash is absent from the store, provided the
preceding entries are file or empty entries. -/
theorem entries_submodule_stops (s : Store) :
    ∀ (pre : List TreeEntry) (fuel : Nat) (st : WalkState) (h0 : Hash)
      (e : TreeEntry) (rest : List TreeEntry),
      (∀ e2 ∈ pre, e2.mode.isFile = true ∨ e2.mode = FileMode.empty) →
      e.mode = FileMode.submodule → s.findObj e.hash = none → e.hash ∉ st.commits →
      pre.length + 2 ≤ fuel →
      step s fuel st (.entries h0 (pre ++ e :: rest)) =
        .error (.commitNotFound e.hash) := by
  intro pre
  induction pre with
  | nil =>
    intro fuel st h0 e rest _ hm habs hnc hf
    obtain ⟨m, nm, eh⟩ := e
    have hm2 : m = FileMode.submodule := hm
    subst hm2
    cases fuel with
    | zero => omega
    | succ f =>
      cases f with
      | zero => omega
      | succ f2 =>
        have hgc : s.getCommit eh = none := by
          unfold Store.getCommit
          rw [habs]
        simp only [List.nil_append, step]
        rw [if_neg hnc, hgc]
  | cons q pre ih =>
    intro fuel st h0 e rest hpre hm habs hnc hf
    cases fuel with
    | zero => simp at hf
    | succ f =>
      obtain ⟨mq, nq, hq⟩ := q
      have hq2 := hpre _ (List.mem_cons_self _ _)
      have hpre2 : ∀ e2 ∈ pre, e2.mode.isFile = true ∨ e2.mode = FileMode.empty :=
        fun e2 he2 => hpre e2 (List.mem_cons_of_mem _ he2)
      have hf2 : pre.length + 2 ≤ f := by simp at hf; omega
      cases mq
      case dir =>
        rcases hq2 with hq2 | hq2 <;> simp [FileMode.isFile, TreeEntry.mode] at hq2
      case submodule =>
        rcases hq2 with hq2 | hq2 <;> simp [FileMode.isFile, TreeEntry.mode] at hq2
      case empty =>
        simp only [List.cons_append, step]
        exact ih f st h0 e rest hpre2 hm habs hnc hf2
      all_goals {
        simp only [List.cons_append, step]
        exact ih f _ h0 e rest hpre2 hm habs (by exact hnc) hf2
      }

/-- C9: a submodule-link entry makes the walker record the containment
edge and recurse into the entry hash as a commit: on success the edge is
present and the hash sits in the commit set; when the hash is absent
from the store the commit lookup fails and the whole walk aborts, so the
program renders nothing and exits with code 1. -/
theorem C9_submodule_absent :
    (∀ (s : Store) (fuel : Nat) (st : WalkState) (h0 : Hash)
        (pre rest : List TreeEntry) (e : TreeEntry),
      s.getTree h0 = some (pre ++ e :: rest) → h0 ∉ st.trees →
      (∀ e2 ∈ pre, e2.mode.isFile = true ∨ e2.mode = FileMode.empty) →
      e.mode = FileMode.submodule → s.findObj e.hash = none → e.hash ∉ st.commits →
      pre.length + 3 ≤ fuel →
      walkTree s fuel st h0 = .error (.commitNotFound e.hash)) ∧
    (∀ (s : Store) (fuel : Nat) (roots : List Hash) (st' : WalkState) (h : Hash)
        (es : List TreeEntry) (e : TreeEntry),
      walkRoots s fuel emptyState roots = .ok st' → h ∈ st'.trees →
      s.getTree h = some es → e ∈ es → e.mode = FileMode.submodule →
      (h, e.hash) ∈ st'.edges ∧ e.hash ∈ st'.commits) ∧
    (∀ opts : Options, mainRun submoduleStore opts 20 [⟨"x", 1⟩] = (1, [])) := by
  refine ⟨?_, ?_, ?_⟩
  · intro s fuel st h0 pre rest e hget hnt hpre hm habs hnc hf
    cases fuel with
    | zero => omega
    | succ f =>
      unfold walkTree
      simp only [step]
      split
      · rename_i hmem2; exact absurd hmem2 hnt
      · rw [hget]
        exact entries_submodule_stops s pre f _ h0 e rest hpre hm habs hnc (by omega)
  · intro s fuel roots st' h es e hw hmem hget he hm
    obtain ⟨_, _, hclp, _⟩ := walkRoots_facts s fuel roots emptyState st'
      (kind3_emptyState s) hw
    have hcl := hclp ∅ (closedE_emptyState s ∅) h (Finset.not_mem_empty h)
    obtain ⟨es', hget', hdone⟩ := hcl.2.2 hmem
    rw [hget] at hget'
    injection hget' with hes
    subst hes
    exact (hdone e he).2.2 hm
  · intro opts
    have ht : traverse submoduleStore 20 [⟨"x", 1⟩] =
        .error (.commitNotFound 77) := by decide
    unfold mainRun
    rw [ht]

/-- Witness for C9 at the concrete submodule store: tree 2 holds a
submodule entry naming the absent hash 77 and the walk fails. -/
theorem C9_submodule_absent_witness :
    submoduleStore.getTree 2 = some ([] ++ ⟨FileMode.submodule, "m", 77⟩ :: []) ∧
    submoduleStore.findObj 77 = none ∧
    walkTree submoduleStore 5 emptyState 2 = .error (.commitNotFound 77) :=
  ⟨by decide, by decide,
   C9_submodule_absent.1 submoduleStore 5 emptyState 2 [] []
     ⟨FileMode.submodule, "m", 77⟩ (by decide) (by decide)
     (fun e2 he2 => absurd he2 (List.not_mem_nil e2)) rfl (by decide) (by decide)
     (by decide)⟩

/-- C10: a file-mode tree entry (symlink included) records the edge and
marks the target as a blob with no store lookup, so the walk succeeds
and renders a blob node even for a hash absent from the store. -/
theorem C10_dangling_file_entries :
    (∀ (s : Store) (fuel : Nat) (st : WalkState) (h0 : Hash) (es : List TreeEntry)
        (opts : Options),
      s.getTree h0 = some es → h0 ∉ st.trees → (∀ e ∈ es, e.mode.isFile = true) →
      es.length + 2 ≤ fuel →
      ∃ st', walkTree s fuel st h0 = .ok st' ∧
        ∀ e ∈ es, e.hash ∈ st'.blobs ∧ (h0, e.hash) ∈ st'.edges ∧
          nodeLine (hashString e.hash) (objAttrs opts "blob" "gold" [] e.hash)
            ∈ render opts st') ∧
    FileMode.isFile FileMode.symlink = true ∧
    (∀ opts : Options, mainRun danglingStore opts 30 [⟨"z", 1⟩] =
      (0, render opts (resultState (traverse danglingStore 30 [⟨"z", 1⟩])))) ∧
    danglingStore.findObj 99 = none ∧
    99 ∈ (resultState (traverse danglingStore 30 [⟨"z", 1⟩])).blobs := by
  refine ⟨?_, rfl, ?_, by decide, by decide⟩
  · intro s fuel st h0 es opts hget hnt hfile hfuel
    cases fuel with
    | zero => omega
    | succ f =>
      have hlen : es.length + 1 ≤ f := by omega
      obtain ⟨st', heq, hsub, hmem⟩ := entries_files_ok s es f
        ⟨st.refs, st.tags, st.commits, insert h0 st.trees, st.blobs, st.edges⟩
        h0 hfile hlen
      refine ⟨st', ?_, ?_⟩
      · unfold walkTree
        simp only [step]
        split
        · rename_i hmem2; exact absurd hmem2 hnt
        · rw [hget]
          exact heq
      · intro e he
        obtain ⟨hb, hedge⟩ := hmem e he
        exact ⟨hb, hedge, mem_render_blobNode hb⟩
  · intro opts
    have ht : traverse danglingStore 30 [⟨"z", 1⟩] =
        .ok (resultState (traverse danglingStore 30 [⟨"z", 1⟩])) := by decide
    unfold mainRun
    rw [ht]
    rfl

/-- Witness for C10 at the dangling-symlink store: tree 2 has one
symlink entry naming the absent hash 99 and the walk succeeds. -/
theorem C10_dangling_file_entries_witness :
    danglingStore.getTree 2 = some [⟨FileMode.symlink, "l", 99⟩] ∧
    (∃ st', walkTree danglingStore 5 emptyState 2 = .ok st' ∧
      ∀ e ∈ [(⟨FileMode.symlink, "l", 99⟩ : TreeEntry)],
        e.hash ∈ st'.blobs ∧ ((2 : Hash), e.hash) ∈ st'.edges ∧
          nodeLine (hashString e.hash)
            (objAttrs ⟨false, false⟩ "blob" "gold" [] e.hash)
            ∈ render ⟨false, false⟩ st') :=
  ⟨by decide,
   C10_dangling_file_entries.1 danglingStore 5 emptyState 2
     [⟨FileMode.symlink, "l", 99⟩] ⟨false, false⟩ (by decide) (by decide)
     (by intro e he; rcases List.mem_cons.mp he with rfl | he
         · rfl
         · exact absurd he (List.not_mem_nil e))
     (by decide)⟩

theorem findObj_unique {s : Store} {h : Hash} {o1 o2 : Obj}
    (h1 : s.findObj h = some o1) (h2 : s.findObj h = some o2) : o1 = o2 := by
  rw [h1] at h2
  exact Option.some.inj h2

/-- C4: if two distinct trees of a successfully walked store each hold a
file entry naming the same blob hash, the final state has that blob in
the (deduplicated) blob set exactly once while the edge list holds two
distinct containment edges into it; and duplicate (source, target) pairs
produced by one tree are preserved, never collapsed. -/
theorem C4_shared_blob :
    (∀ (s : Store) (roots : List Hash) (fuel : Nat) (st' : WalkState)
        (T1 T2 B : Hash) (es1 es2 : List TreeEntry) (e1 e2 : TreeEntry),
      walkRoots s fuel emptyState roots = .ok st' →
      T1 ≠ T2 → T1 ∈ st'.trees → T2 ∈ st'.trees →
      s.getTree T1 = some es1 → s.getTree T2 = some es2 →
      e1 ∈ es1 → e2 ∈ es2 → e1.mode.isFile = true → e2.mode.isFile = true →
      e1.hash = B → e2.hash = B →
      B ∈ st'.blobs ∧ (finList st'.blobs).count B = 1 ∧
      (T1, B) ∈ st'.edges ∧ (T2, B) ∈ st'.edges ∧ (T1, B) ≠ (T2, B)) ∧
    (resultState (walkRoots dupEdgeStore 10 emptyState [23])).edges.count
      ((23 : Hash), (31 : Hash)) = 2 := by
  refine ⟨?_, by decide⟩
  intro s roots fuel st' T1 T2 B es1 es2 e1 e2 hw hne hT1 hT2 hg1 hg2 he1 he2
    hf1 hf2 hb1 hb2
  obtain ⟨_, _, hclp, _⟩ := walkRoots_facts s fuel roots emptyState st'
    (kind3_emptyState s) hw
  have hcl1 := hclp ∅ (closedE_emptyState s ∅) T1 (Finset.not_mem_empty T1)
  have hcl2 := hclp ∅ (closedE_emptyState s ∅) T2 (Finset.not_mem_empty T2)
  obtain ⟨es1', hg1', hdone1⟩ := hcl1.2.2 hT1
  obtain ⟨es2', hg2', hdone2⟩ := hcl2.2.2 hT2
  rw [hg1] at hg1'
  injection hg1' with hes1
  subst hes1
  rw [hg2] at hg2'
  injection hg2' with hes2
  subst hes2
  obtain ⟨hedge1, hblob1⟩ := (hdone1 e1 he1).2.1 hf1
  obtain ⟨hedge2, hblob2⟩ := (hdone2 e2 he2).2.1 hf2
  subst hb1
  rw [hb2] at hedge2
  refine ⟨hblob1, ?_, hedge1, hedge2, ?_⟩
  · refine List.count_eq_one_of_mem (Finset.sort_nodup _ _) ?_
    rw [finList, Finset.mem_sort]
    exact hblob1
  · intro hc
    exact hne (congrArg Prod.fst hc)

/-- Witness for C4 on the shared-blob store: trees 21 and 22 both point
at blob 30. -/
theorem C4_shared_blob_witness :
    walkRoots sharedBlobStore 30 emptyState [1] = .ok sharedBlobFinal ∧
    (30 ∈ sharedBlobFinal.blobs ∧ (finList sharedBlobFinal.blobs).count 30 = 1 ∧
      ((21 : Hash), (30 : Hash)) ∈ sharedBlobFinal.edges ∧
      ((22 : Hash), (30 : Hash)) ∈ sharedBlobFinal.edges ∧
      ((21 : Hash), (30 : Hash)) ≠ ((22 : Hash), (30 : Hash))) :=
  ⟨by decide,
   C4_shared_blob.1 sharedBlobStore [1] 30 sharedBlobFinal 21 22 30
     [⟨FileMode.regular, "f", 30⟩] [⟨FileMode.regular, "g", 30⟩]
     ⟨FileMode.regular, "f", 30⟩ ⟨FileMode.regular, "g", 30⟩
     (by decide) (by decide) (by decide) (by decide) (by decide) (by decide)
     (List.mem_cons_self _ _) (List.mem_cons_self _ _) rfl rfl rfl rfl⟩

/-- C1 counterexample: on the adversarial overlap store (a file entry
naming a hash that is stored as a commit) a successful rooted walk puts
hash 3 into both the blob set and the commit set, so the four kind-sets
are not pairwise disjoint for every store, and hash 3 is re-expanded as
a commit after having been inserted into the blob set. -/
theorem C1_counterexample :
    isOkE (walkRoots overlapStore 30 emptyState [1]) = true ∧
    3 ∈ (resultState (walkRoots overlapStore 30 emptyState [1])).blobs ∧
    3 ∈ (resultState (walkRoots overlapStore 30 emptyState [1])).commits ∧
    ¬ Disjoint (resultState (walkRoots overlapStore 30 emptyState [1])).blobs
        (resultState (walkRoots overlapStore 30 emptyState [1])).commits :=
  ⟨by decide, by decide, by decide,
   Finset.not_disjoint_iff.mpr ⟨3, by decide, by decide⟩⟩

/-- C1 (amended): over a store whose file-mode tree entries name only
hashes that are absent or stored as blobs, a successful rooted walk
leaves the four kind-sets pairwise disjoint, their union equals exactly
the set of hashes reachable from the roots, and a hash already in a
kind-set is never revisited or re-expanded: the corresponding walk
function returns the state unchanged. -/
theorem C1_kind_sets (s : Store) (roots : List Hash) (fuel : Nat) (st' : WalkState)
    (hcons : FileModeConsistent s)
    (hw : walkRoots s fuel emptyState roots = .ok st') :
    (Disjoint st'.tags st'.commits ∧ Disjoint st'.tags st'.trees ∧
     Disjoint st'.tags st'.blobs ∧ Disjoint st'.commits st'.trees ∧
     Disjoint st'.commits st'.blobs ∧ Disjoint st'.trees st'.blobs) ∧
    (∀ x, x ∈ st'.union ↔ Reach s roots x) ∧
    (∀ (x : Hash) (f2 : Nat), x ∈ st'.union → walk s (f2 + 1) st' x = .ok st') ∧
    (∀ (x : Hash) (f2 : Nat), x ∈ st'.tags → walkTag s (f2 + 1) st' x = .ok st') ∧
    (∀ (x : Hash) (f2 : Nat), x ∈ st'.commits → walkCommit s (f2 + 1) st' x = .ok st') ∧
    (∀ (x : Hash) (f2 : Nat), x ∈ st'.trees → walkTree s (f2 + 1) st' x = .ok st') := by
  obtain ⟨hk', _, hclp, hroots⟩ := walkRoots_facts s fuel roots emptyState st'
    (kind3_emptyState s) hw
  have hblob := walkRoots_blobs s hcons fuel roots emptyState st'
    (by intro x hx; simp [emptyState] at hx) hw
  have hcl : ∀ x, ClosedAt s st' x := fun x =>
    hclp ∅ (closedE_emptyState s ∅) x (Finset.not_mem_empty x)
  have hplace_tag : ∀ h t, s.findObj h = some (Obj.tag t) →
      h ∈ st'.union → h ∈ st'.tags := by
    intro h t hfo hx
    rcases mem_union_iff.mp hx with hx | hx | hx | hx
    · exact hx
    · obtain ⟨pr, hgc⟩ := hk'.2.1 h hx
      exact Obj.noConfusion (findObj_unique hfo (getCommit_some hgc))
    · obtain ⟨es, hgt⟩ := hk'.2.2 h hx
      exact Obj.noConfusion (findObj_unique hfo (getTree_some hgt))
    · rcases hblob h hx with hb | hb
      · rw [hfo] at hb; exact Option.noConfusion hb
      · exact Obj.noConfusion (findObj_unique hfo hb)
  have hplace_commit : ∀ h t ps, s.findObj h = some (Obj.commit t ps) →
      h ∈ st'.union → h ∈ st'.commits := by
    intro h t ps hfo hx
    rcases mem_union_iff.mp hx with hx | hx | hx | hx
    · obtain ⟨tg, hgt⟩ := hk'.1 h hx
      exact Obj.noConfusion (findObj_unique hfo (getTag_some hgt))
    · exact hx
    · obtain ⟨es, hgt⟩ := hk'.2.2 h hx
      exact Obj.noConfusion (findObj_unique hfo (getTree_some hgt))
    · rcases hblob h hx with hb | hb
      · rw [hfo] at hb; exact Option.noConfusion hb
      · exact Obj.noConfusion (findObj_unique hfo hb)
  have hplace_tree : ∀ h es, s.findObj h = some (Obj.tree es) →
      h ∈ st'.union → h ∈ st'.trees := by
    intro h es hfo hx
    rcases mem_union_iff.mp hx with hx | hx | hx | hx
    · obtain ⟨tg, hgt⟩ := hk'.1 h hx
      exact Obj.noConfusion (findObj_unique hfo (getTag_some hgt))
    · obtain ⟨pr, hgc⟩ := hk'.2.1 h hx
      exact Obj.noConfusion (findObj_unique hfo (getCommit_some hgc))
    · exact hx
    · rcases hblob h hx with hb | hb
      · rw [hfo] at hb; exact Option.noConfusion hb
      · exact Obj.noConfusion (findObj_unique hfo hb)
  refine ⟨⟨?_, ?_, ?_, ?_, ?_, ?_⟩, ?_, ?_, ?_, ?_, ?_⟩
  · refine Finset.disjoint_left.mpr fun {x} hx1 hx2 => ?_
    obtain ⟨tg, hgt⟩ := hk'.1 x hx1
    obtain ⟨pr, hgc⟩ := hk'.2.1 x hx2
    exact kindClash_tag_commit hgt hgc
  · refine Finset.disjoint_left.mpr fun {x} hx1 hx2 => ?_
    obtain ⟨tg, hgt⟩ := hk'.1 x hx1
    obtain ⟨es, hge⟩ := hk'.2.2 x hx2
    exact kindClash_tag_tree hgt hge
  · refine Finset.disjoint_left.mpr fun {x} hx1 hx2 => ?_
    obtain ⟨tg, hgt⟩ := hk'.1 x hx1
    have hfo := getTag_some hgt
    rcases hblob x hx2 with hb | hb
    · rw [hfo] at hb; exact Option.noConfusion hb
    · exact Obj.noConfusion (findObj_unique hfo hb)
  · refine Finset.disjoint_left.mpr fun {x} hx1 hx2 => ?_
    obtain ⟨pr, hgc⟩ := hk'.2.1 x hx1
    obtain ⟨es, hge⟩ := hk'.2.2 x hx2
    exact kindClash_commit_tree hgc hge
  · refine Finset.disjoint_left.mpr fun {x} hx1 hx2 => ?_
    obtain ⟨pr, hgc⟩ := hk'.2.1 x hx1
    have hfo := getCommit_some hgc
    rcases hblob x hx2 with hb | hb
    · rw [hfo] at hb; exact Option.noConfusion hb
    · exact Obj.noConfusion (findObj_unique hfo hb)
  · refine Finset.disjoint_left.mpr fun {x} hx1 hx2 => ?_
    obtain ⟨es, hge⟩ := hk'.2.2 x hx1
    have hfo := getTree_some hge
    rcases hblob x hx2 with hb | hb
    · rw [hfo] at hb; exact Option.noConfusion hb
    · exact Obj.noConfusion (findObj_unique hfo hb)
  · intro x
    constructor
    · exact fun hx => walkRoots_reach s roots fuel roots emptyState st'
        (fun r hr => Reach.root hr) (fun y hy => (union_emptyState y hy).elim) hw x hx
    · intro hre
      induction hre with
      | root hr => exact hroots _ hr
      | tagTarget hre hfo ih =>
        rename_i h t
        have hmem := hplace_tag h t hfo ih
        obtain ⟨x', hget, _, hxu⟩ := (hcl h).1 hmem
        have hgt : s.getTag h = some t := by
          unfold Store.getTag
          rw [hfo]
        rw [hget] at hgt
        injection hgt with hx'
        subst hx'
        exact hxu
      | commitTree hre hfo ih =>
        rename_i h t ps
        have hmem := hplace_commit h t ps hfo ih
        obtain ⟨t', ps', hgc, htm, _, _⟩ := (hcl h).2.1 hmem
        have hgc2 : s.getCommit h = some (t, ps) := by
          unfold Store.getCommit
          rw [hfo]
        rw [hgc2] at hgc
        have hpq := Option.some.inj hgc
        have ht' : t' = t := (congrArg Prod.fst hpq).symm
        subst ht'
        exact mem_union_iff.mpr (Or.inr (Or.inr (Or.inl htm)))
      | commitParent hre hfo hp ih =>
        rename_i h t p ps
        have hmem := hplace_commit h t ps hfo ih
        obtain ⟨t', ps', hgc, _, _, hps⟩ := (hcl h).2.1 hmem
        have hgc2 : s.getCommit h = some (t, ps) := by
          unfold Store.getCommit
          rw [hfo]
        rw [hgc2] at hgc
        have hpq := Option.some.inj hgc
        have hps' : ps' = ps := (congrArg Prod.snd hpq).symm
        subst hps'
        exact mem_union_iff.mpr (Or.inr (Or.inl (hps p hp).1))
      | treeEntry hre hfo he hne ih =>
        rename_i h es e
        have hmem := hplace_tree h es hfo ih
        obtain ⟨es', hget, hdone⟩ := (hcl h).2.2 hmem
        have hge : s.getTree h = some es := by
          unfold Store.getTree
          rw [hfo]
        rw [hge] at hget
        injection hget with hes'
        subst hes'
        have hd := hdone e he
        cases hmode : e.mode with
        | empty => exact absurd hmode hne
        | dir => exact mem_union_iff.mpr (Or.inr (Or.inr (Or.inl (hd.1 hmode).2)))
        | submodule => exact mem_union_iff.mpr (Or.inr (Or.inl (hd.2.2 hmode).2))
        | regular =>
          exact mem_union_iff.mpr (Or.inr (Or.inr (Or.inr
            (hd.2.1 (by rw [hmode]; rfl)).2)))
        | deprecated =>
          exact mem_union_iff.mpr (Or.inr (Or.inr (Or.inr
            (hd.2.1 (by rw [hmode]; rfl)).2)))
        | executable =>
          exact mem_union_iff.mpr (Or.inr (Or.inr (Or.inr
            (hd.2.1 (by rw [hmode]; rfl)).2)))
        | symlink =>
          exact mem_union_iff.mpr (Or.inr (Or.inr (Or.inr
            (hd.2.1 (by rw [hmode]; rfl)).2)))
  · exact fun x f2 hx => walk_guard s f2 st' x hx
  · exact fun x f2 hx => walkTag_guard s f2 st' x hx
  · exact fun x f2 hx => walkCommit_guard s f2 st' x hx
  · exact fun x f2 hx => walkTree_guard s f2 st' x hx

/-- Witness for C1 on the mode-consistent scenario A store. -/
theorem C1_kind_sets_witness :
    FileModeConsistent scenarioAStore ∧
    walkRoots scenarioAStore 20 emptyState [1] = .ok scenarioAFinal ∧
    Disjoint scenarioAFinal.tags scenarioAFinal.commits ∧
    (∀ x, x ∈ scenarioAFinal.union ↔ Reach scenarioAStore [1] x) :=
  ⟨by unfold FileModeConsistent; decide, by decide,
   (C1_kind_sets scenarioAStore [1] 20 scenarioAFinal
     (by unfold FileModeConsistent; decide) (by decide)).1.1,
   (C1_kind_sets scenarioAStore [1] 20 scenarioAFinal
     (by unfold FileModeConsistent; decide) (by decide)).2.1⟩

end GitGraphviz
